import Mathlib

/-!
Verification of the browserclaw snapshot/ref core.

This file shallowly embeds the snapshot parser, ref-assignment and
disambiguation algorithm (`src/snapshot/ref-map.ts`, exposed through
`aria-snapshot.ts`), the tree compactor, and the ref-resolution and
session-ref-cache logic (`src/connection.ts`), and proves the spec's
testable properties about them.

Strings are modelled as `List Char`; JavaScript's `string.split('\n')` /
`array.join('\n')` pair is modelled by `splitLines` / `joinLines`.
The regular expression used by the line parser,
`^(\s*-\s*)(\w+)(?:\s+"([^"]*)")?(.*)$`, is embedded as the deterministic
function `lineMatch` (greedy matching with the character classes involved
being pairwise disjoint makes the match deterministic; `.` does not match
line terminators, so a match requires the trailing group to be
terminator-free).  JavaScript `Map` insertion-order semantics are modelled
by association lists (`lookupA` / `setA`), and JS objects holding refs
likewise.
-/

abbrev Str := List Char

def str (s : String) : Str := s.toList

/-- Whitespace class of JavaScript regular expressions (used by the parser
via the regex classes and by string trimming). -/
def isJsSpace (c : Char) : Bool :=
  c = ' ' || c = '\t' || c = '\n' || c = '\r' ||
  c = '\x0b' || c = '\x0c' || c = '\u00A0' || c = '\u1680' ||
  ('\u2000' ≤ c && c ≤ '\u200A') || c = '\u2028' || c = '\u2029' ||
  c = '\u202F' || c = '\u205F' || c = '\u3000' || c = '\uFEFF'

/-- JavaScript `\w`: ASCII letters, digits and underscore. -/
def isWordChar (c : Char) : Bool := c.isAlphanum || c = '_'

/-- JavaScript line terminators, which `.` does not match. `'\n'` cannot
occur inside a split line, but `'\r'` and the two Unicode separators can. -/
def isLineTerm (c : Char) : Bool :=
  c = '\n' || c = '\r' || c = '\u2028' || c = '\u2029'

def dotFree (l : Str) : Bool := l.all (fun c => !isLineTerm c)

/-- `s.split('\n')` of JavaScript: always returns at least one piece. -/
def splitLines : Str → List Str
  | [] => [[]]
  | c :: cs =>
    if c = '\n' then [] :: splitLines cs
    else
      match splitLines cs with
      | [] => [[c]]
      | l :: ls => (c :: l) :: ls

/-- `array.join('\n')` of JavaScript. -/
def joinLines : List Str → Str
  | [] => []
  | [l] => l
  | l :: ls => l ++ '\n' :: joinLines ls

def containsChar (l : Str) (c : Char) : Bool := l.any (· = c)

/-- Decidable substring test (`string.includes` of JavaScript). -/
def isPrefixOfC : Str → Str → Bool
  | [], _ => true
  | _ :: _, [] => false
  | a :: as, b :: bs => a = b && isPrefixOfC as bs

def hasSub (pat : Str) : Str → Bool
  | [] => pat.isEmpty
  | c :: cs => isPrefixOfC pat (c :: cs) || hasSub pat cs

/-- `line.match(/^(\s*)/)` length divided by 2 (`getIndentLevel`). -/
def getIndentLevel (line : Str) : Nat := (line.takeWhile isJsSpace).length / 2

/-- The captured groups of `^(\s*-\s*)(\w+)(?:\s+"([^"]*)")?(.*)$`. -/
structure LineParts where
  pre : Str
  roleRaw : Str
  name : Option Str
  suffixPart : Str
deriving DecidableEq, Repr

/-- Deterministic embedding of the line-parsing regular expression
`^(\s*-\s*)(\w+)(?:\s+"([^"]*)")?(.*)$`.  Whitespace, `-`, word characters
and `"` are pairwise disjoint, so all greedy choices are forced; the final
`(.*)$` succeeds exactly when the remaining text is terminator-free, and
when the optional name group's continuation fails the engine falls back to
matching without the group. -/
def lineMatch (l : Str) : Option LineParts :=
  let w1 := l.takeWhile isJsSpace
  match l.dropWhile isJsSpace with
  | '-' :: r2 =>
    let w2 := r2.takeWhile isJsSpace
    let r3 := r2.dropWhile isJsSpace
    let role := r3.takeWhile isWordChar
    let r4 := r3.dropWhile isWordChar
    if role = [] then none
    else
      let pre := w1 ++ '-' :: w2
      let fallback := if dotFree r4 then some ⟨pre, role, none, r4⟩ else none
      match r4.takeWhile isJsSpace, r4.dropWhile isJsSpace with
      | _ :: _, '"' :: r6 =>
        let nm := r6.takeWhile (· ≠ '"')
        match r6.dropWhile (· ≠ '"') with
        | '"' :: suf => if dotFree suf then some ⟨pre, role, some nm, suf⟩ else fallback
        | _ => fallback
      | _, _ => fallback
  | _ => none

-- ── Role sets (ref-map.ts) ──

def INTERACTIVE_ROLES : List Str :=
  [str "button", str "link", str "textbox", str "checkbox", str "radio",
   str "combobox", str "listbox", str "menuitem", str "menuitemcheckbox",
   str "menuitemradio", str "option", str "searchbox", str "slider",
   str "spinbutton", str "switch", str "tab", str "treeitem"]

def CONTENT_ROLES : List Str :=
  [str "heading", str "cell", str "gridcell", str "columnheader",
   str "rowheader", str "listitem", str "article", str "region",
   str "main", str "navigation"]

def STRUCTURAL_ROLES : List Str :=
  [str "generic", str "group", str "list", str "table", str "row",
   str "rowgroup", str "grid", str "treegrid", str "menu", str "menubar",
   str "toolbar", str "tablist", str "tree", str "directory",
   str "document", str "application", str "presentation", str "none"]

-- ── Ref table entries (types.ts RoleRefInfo / RoleRefs) ──

structure RoleRefInfo where
  role : Str
  name : Option Str
  nth : Option Nat
deriving DecidableEq, Repr

/-- JS objects keyed by `e<n>` strings preserve insertion order; the ref
table is an association list in insertion order. -/
abbrev RoleRefs := List (Str × RoleRefInfo)

-- ── Association-list model of JS Map and object field update ──

def lookupA {β : Type} : List (Str × β) → Str → Option β
  | [], _ => none
  | p :: rest, k => if p.1 = k then some p.2 else lookupA rest k

/-- `Map.set`: overwrite in place when present (keeping the key's
insertion-order position), append when absent. -/
def setA {β : Type} : List (Str × β) → Str → β → List (Str × β)
  | [], k, v => [(k, v)]
  | p :: rest, k, v => if p.1 = k then (k, v) :: rest else p :: setA rest k v

-- ── Decimal rendering of counters (template literals `e${n}`) ──

def digitChar (d : Nat) : Char := Char.ofNat (48 + d)

def natDigitsAux : Nat → Nat → Str
  | 0, _ => []
  | fuel + 1, n =>
    if n < 10 then [digitChar n]
    else natDigitsAux fuel (n / 10) ++ [digitChar (n % 10)]

def natDigits (n : Nat) : Str := natDigitsAux (n + 1) n

def refName (n : Nat) : Str := 'e' :: natDigits n

-- ── Role/name tracker (createRoleNameTracker) ──

structure Tracker where
  counts : List (Str × Nat)
  refsByKey : List (Str × List Str)
deriving Repr

def Tracker.empty : Tracker := ⟨[], []⟩

/-- `getKey(role, name)`: the template string `role:name ?? ''`. -/
def getKey (role : Str) (name : Option Str) : Str := role ++ ':' :: name.getD []

/-- `getNextIndex`: read the current count for the key (0 when absent),
store count+1, return the old count. -/
def getNextIndex (t : Tracker) (role : Str) (name : Option Str) : Nat × Tracker :=
  let key := getKey role name
  let current := (lookupA t.counts key).getD 0
  (current, { t with counts := setA t.counts key (current + 1) })

def trackRef (t : Tracker) (role : Str) (name : Option Str) (ref : Str) : Tracker :=
  let key := getKey role name
  let list := (lookupA t.refsByKey key).getD []
  { t with refsByKey := setA t.refsByKey key (list ++ [ref]) }

/-- Membership in `getDuplicateKeys()`: the key's tracked ref list has
more than one element. -/
def isDuplicateKey (t : Tracker) (key : Str) : Bool :=
  match lookupA t.refsByKey key with
  | some refs => refs.length > 1
  | none => false

/-- `removeNthFromNonDuplicates`: drop the `nth` field from every entry
whose `(role, name)` key is not a duplicate key. -/
def removeNthFromNonDuplicates (refs : RoleRefs) (t : Tracker) : RoleRefs :=
  refs.map fun p =>
    if isDuplicateKey t (getKey p.2.role p.2.name) then p
    else (p.1, { p.2 with nth := none })

-- ── Tree compactor (compactTree) ──

def refMark : Str := ['[', 'r', 'e', 'f', '=']

def trimEnd (l : Str) : Str := (l.reverse.dropWhile isJsSpace).reverse

def endsWithColon (l : Str) : Bool := l.getLast? = some ':'

/-- Forward scan over the current line's subtree: stop at the first line
whose indentation returns to the current level, succeed at the first
descendant carrying a ref. -/
def scanChildren (indent : Nat) : List Str → Bool
  | [] => false
  | l :: rest =>
    if getIndentLevel l ≤ indent then false
    else if hasSub refMark l then true
    else scanChildren indent rest

def compactKeep (l : Str) (rest : List Str) : Bool :=
  if hasSub refMark l then true
  else if containsChar l ':' && !endsWithColon (trimEnd l) then true
  else scanChildren (getIndentLevel l) rest

def compactLines : List Str → List Str
  | [] => []
  | l :: rest =>
    if compactKeep l rest then l :: compactLines rest else compactLines rest

def compactTree (tree : Str) : Str := joinLines (compactLines (splitLines tree))

-- ── Snapshot builder (buildRoleSnapshotFromAriaSnapshot) ──

structure SnapshotBuildOptions where
  interactive : Bool := false
  compact : Bool := false
  maxDepth : Option Nat := none
deriving Repr

/-- Truthiness of an optional string field: present and non-empty. -/
def nameTruthy : Option Str → Bool
  | some (_ :: _) => true
  | _ => false

def depthSkip (options : SnapshotBuildOptions) (line : Str) : Bool :=
  match options.maxDepth with
  | some d => getIndentLevel line > d
  | none => false

structure BuildSt where
  counter : Nat
  refs : RoleRefs
  tracker : Tracker
  out : List Str

def initSt : BuildSt := ⟨0, [], Tracker.empty, []⟩

def lowerStr (l : Str) : Str := l.map Char.toLower

/-- One interactive-mode loop iteration of `buildRoleSnapshotFromAriaSnapshot`. -/
def interProcessLine (options : SnapshotBuildOptions) (st : BuildSt) (line : Str) : BuildSt :=
  if depthSkip options line then st else
  match lineMatch line with
  | none => st
  | some parts =>
    if parts.roleRaw.head? = some '/' then st
    else
      let role := lowerStr parts.roleRaw
      if role ∈ INTERACTIVE_ROLES then
        let counter := st.counter + 1
        let ref := refName counter
        let (nth, tr1) := getNextIndex st.tracker role parts.name
        let tr2 := trackRef tr1 role parts.name ref
        let enhanced :=
          parts.pre ++ parts.roleRaw
          ++ (if nameTruthy parts.name then ' ' :: '"' :: parts.name.getD [] ++ ['"'] else [])
          ++ (' ' :: '[' :: 'r' :: 'e' :: 'f' :: '=' :: ref ++ [']'])
          ++ (if nth > 0 then ' ' :: '[' :: 'n' :: 't' :: 'h' :: '=' :: natDigits nth ++ [']'] else [])
          ++ (if containsChar parts.suffixPart '[' then parts.suffixPart else [])
        { counter := counter,
          refs := st.refs ++ [(ref, ⟨role, parts.name, some nth⟩)],
          tracker := tr2,
          out := st.out ++ [enhanced] }
      else st

/-- One full-tree-mode loop iteration of `buildRoleSnapshotFromAriaSnapshot`. -/
def fullProcessLine (options : SnapshotBuildOptions) (st : BuildSt) (line : Str) : BuildSt :=
  if depthSkip options line then st else
  match lineMatch line with
  | none => { st with out := st.out ++ [line] }
  | some parts =>
    if parts.roleRaw.head? = some '/' then { st with out := st.out ++ [line] }
    else
      let role := lowerStr parts.roleRaw
      let isInteractive := role ∈ INTERACTIVE_ROLES
      let isContent := role ∈ CONTENT_ROLES
      let isStructural := role ∈ STRUCTURAL_ROLES
      if options.compact && isStructural && !nameTruthy parts.name then st
      else if !(isInteractive || (isContent && nameTruthy parts.name)) then
        { st with out := st.out ++ [line] }
      else
        let counter := st.counter + 1
        let ref := refName counter
        let (nth, tr1) := getNextIndex st.tracker role parts.name
        let tr2 := trackRef tr1 role parts.name ref
        let enhanced :=
          parts.pre ++ parts.roleRaw
          ++ (if nameTruthy parts.name then ' ' :: '"' :: parts.name.getD [] ++ ['"'] else [])
          ++ (' ' :: '[' :: 'r' :: 'e' :: 'f' :: '=' :: ref ++ [']'])
          ++ (if nth > 0 then ' ' :: '[' :: 'n' :: 't' :: 'h' :: '=' :: natDigits nth ++ [']'] else [])
          ++ (if parts.suffixPart ≠ [] then parts.suffixPart else [])
        { counter := counter,
          refs := st.refs ++ [(ref, ⟨role, parts.name, some nth⟩)],
          tracker := tr2,
          out := st.out ++ [enhanced] }

structure BuildResult where
  snapshot : Str
  refs : RoleRefs
deriving Repr

def buildRoleSnapshotFromAriaSnapshot (ariaSnapshot : Str)
    (options : SnapshotBuildOptions) : BuildResult :=
  let lines := splitLines ariaSnapshot
  if options.interactive then
    let st := lines.foldl (interProcessLine options) initSt
    let refs := removeNthFromNonDuplicates st.refs st.tracker
    let joined := joinLines st.out
    ⟨if joined = [] then str "(no interactive elements)" else joined, refs⟩
  else
    let st := lines.foldl (fullProcessLine options) initSt
    let refs := removeNthFromNonDuplicates st.refs st.tracker
    let joined := joinLines st.out
    let tree := if joined = [] then str "(empty)" else joined
    ⟨if options.compact then compactTree tree else tree, refs⟩

-- ── Session ref cache and resolution (connection.ts) ──

inductive RefsMode | roleMode | ariaMode
deriving DecidableEq, Repr

/-- Relevant fields of the per-page `PageState` (the console/error/network
buffers of the source structure play no part in ref handling and are
omitted). A fresh state created by `ensurePageState` has all three fields
undefined. -/
structure PageState where
  roleRefs : Option RoleRefs
  roleRefsFrameSelector : Option Str
  roleRefsMode : Option RefsMode
deriving DecidableEq, Repr

def ensurePageState (page : Option PageState) : PageState :=
  page.getD ⟨none, none, none⟩

/-- Truthiness of an optional string value (`x ? ... : ...`). -/
def optTruthy (s : Option Str) : Option Str :=
  match s with
  | some (_ :: _) => s
  | _ => none

/-- `normalizeCdpUrl`: `raw.replace(/\/$/, '')` removes one trailing slash. -/
def normalizeCdpUrl (raw : Str) : Str :=
  if raw.getLast? = some '/' then raw.dropLast else raw

/-- Cache key `"cdpUrl::targetId"` (after URL normalization). -/
def roleRefsKey (cdpUrl targetId : Str) : Str :=
  normalizeCdpUrl cdpUrl ++ ':' :: ':' :: targetId

/-- One cached `roleRefsByTarget` value; `frameSelector`/`mode` are present
only when truthy (conditional object spread in the source). -/
structure CacheEntry where
  refs : RoleRefs
  frameSelector : Option Str
  mode : Option RefsMode
deriving DecidableEq, Repr

/-- `roleRefsByTarget`, a JS `Map` in insertion order. -/
abbrev RoleRefsCache := List (Str × CacheEntry)

def MAX_ROLE_REFS_CACHE : Nat := 50

/-- JavaScript `String.prototype.trim`. -/
def jsTrim (l : Str) : Str :=
  ((l.dropWhile isJsSpace).reverse.dropWhile isJsSpace).reverse

/-- The `while (size > MAX) delete first` eviction loop after an insert. -/
def evictOverCapacity (m : RoleRefsCache) : RoleRefsCache :=
  if m.length > MAX_ROLE_REFS_CACHE then evictOverCapacity m.tail else m
termination_by m.length
decreasing_by
  rename_i h
  cases m with
  | nil => simp at h
  | cons a as => simp

/-- `storeRoleRefsForTarget`: always overwrite the live page state; when
the trimmed target id is non-empty also write the cache entry and run the
eviction loop. -/
def storeRoleRefsForTarget (cdpUrl : Str) (targetId : Option Str)
    (refs : RoleRefs) (frameSelector : Option Str) (mode : Option RefsMode)
    (cache : RoleRefsCache) : PageState × RoleRefsCache :=
  let state : PageState :=
    { roleRefs := some refs, roleRefsFrameSelector := frameSelector,
      roleRefsMode := mode }
  let t := jsTrim (targetId.getD [])
  if t = [] then (state, cache)
  else
    (state,
     evictOverCapacity
       (setA cache (roleRefsKey cdpUrl t)
         ⟨refs, optTruthy frameSelector, mode⟩))

/-- `restoreRoleRefsForTarget`: look the page's key up in the cache and
populate the live state from it, but only when the live state holds no
current table. Returns the page-state map entry after the call (`none`
when the early returns fire before `ensurePageState`). -/
def restoreRoleRefsForTarget (cdpUrl : Str) (targetId : Option Str)
    (page : Option PageState) (cache : RoleRefsCache) : Option PageState :=
  let t := jsTrim (targetId.getD [])
  if t = [] then page
  else
    match lookupA cache (roleRefsKey cdpUrl t) with
    | none => page
    | some entry =>
      let state := ensurePageState page
      if state.roleRefs.isSome then some state
      else
        some { roleRefs := some entry.refs,
               roleRefsFrameSelector := entry.frameSelector,
               roleRefsMode := entry.mode }

/-- The `disconnected` handler of `connectBrowser`: delete every cache key
that starts with `normalized + '::'`. -/
def purgeConnectionRefs (cache : RoleRefsCache) (cdpUrl : Str) : RoleRefsCache :=
  let pfx := normalizeCdpUrl cdpUrl ++ [':', ':']
  cache.filter fun p => !isPrefixOfC pfx p.1

-- ── Ref resolution (refLocator) ──

/-- The Playwright locator ultimately built by `refLocator`; constructing
one of these is what issues an engine query, so an `Except.error` result
means the call failed before any engine round-trip. -/
inductive PwLocator where
  | ariaRef (frameSelector : Option Str) (token : Str)
  | byRole (frameSelector : Option Str) (role : Str) (nameExact : Option Str)
      (nth : Option Nat)
deriving DecidableEq, Repr

inductive RefError where
  | unknownRef (token : Str)
deriving DecidableEq, Repr

/-- Strip a leading `@` sigil, else a leading `ref=`, else nothing. -/
def normalizeRefToken (ref : Str) : Str :=
  if isPrefixOfC ['@'] ref then ref.drop 1
  else if isPrefixOfC (str "ref=") ref then ref.drop 4
  else ref

/-- The test `/^e\d+$/`. -/
def matchERef : Str → Bool
  | 'e' :: ds => !ds.isEmpty && ds.all Char.isDigit
  | _ => false

/-- `refLocator(page, ref)`. The page-state argument is the entry of the
`pageStates` map for the page (`none` when the page has no state). -/
def refLocator (pageState : Option PageState) (ref : Str) :
    Except RefError PwLocator :=
  let normalized := normalizeRefToken ref
  if matchERef normalized then
    match pageState with
    | some st =>
      if st.roleRefsMode = some RefsMode.ariaMode then
        Except.ok (PwLocator.ariaRef (optTruthy st.roleRefsFrameSelector) normalized)
      else
        match st.roleRefs.bind (fun refs => lookupA refs normalized) with
        | none => Except.error (RefError.unknownRef normalized)
        | some info =>
          Except.ok (PwLocator.byRole (optTruthy st.roleRefsFrameSelector)
            info.role (if nameTruthy info.name then info.name else none) info.nth)
    | none => Except.error (RefError.unknownRef normalized)
  else
    Except.ok (PwLocator.ariaRef none normalized)

-- ═══ Claim C4 ═══

/-- Claim C4: in computed (role) addressing mode, resolving a ref token
whose normalized form matches `e<digits>` but is absent from the current
ref table fails immediately with the unknown-ref error classification; the
result is an error, not a `PwLocator`, so no engine query of any kind is
constructed before the failure. -/
theorem c4_unknown_ref_fails_without_engine_query
    (pageState : Option PageState) (ref : Str)
    (hm : matchERef (normalizeRefToken ref) = true)
    (hmode : pageState.bind PageState.roleRefsMode ≠ some RefsMode.ariaMode)
    (hmiss : (pageState.bind PageState.roleRefs).bind
        (fun refs => lookupA refs (normalizeRefToken ref)) = none) :
    refLocator pageState ref
      = Except.error (RefError.unknownRef (normalizeRefToken ref)) := by
  unfold refLocator
  cases pageState with
  | none => simp [hm]
  | some st =>
    simp only [Option.some_bind] at hmode hmiss
    simp [hm, hmode, hmiss]

theorem c4_unknown_ref_fails_without_engine_query_witness :
    matchERef (normalizeRefToken (str "e7")) = true ∧
    refLocator (some ⟨some [], none, some RefsMode.roleMode⟩) (str "e7")
      = Except.error (RefError.unknownRef (normalizeRefToken (str "e7"))) :=
  ⟨by decide,
   c4_unknown_ref_fails_without_engine_query
     (some ⟨some [], none, some RefsMode.roleMode⟩) (str "e7")
     (by decide) (by decide) (by decide)⟩

-- ═══ Claim C10 ═══

/-- Claim C10: when the normalized token does not match `e<digits>`,
`refLocator` never raises the local unknown-ref error and never consults
the per-page ref table: it returns the engine `aria-ref` lookup on the
normalized token, unscoped, for every page state (hence regardless of the
stored addressing mode). -/
theorem c10_non_eref_token_delegated_to_engine
    (pageState : Option PageState) (ref : Str)
    (hm : matchERef (normalizeRefToken ref) = false) :
    refLocator pageState ref
      = Except.ok (PwLocator.ariaRef none (normalizeRefToken ref)) := by
  unfold refLocator
  simp [hm]

theorem c10_non_eref_token_delegated_to_engine_witness :
    matchERef (normalizeRefToken (str "@eX")) = false ∧
    refLocator (some ⟨some [], some (str "#frame"), some RefsMode.roleMode⟩) (str "@eX")
      = Except.ok (PwLocator.ariaRef none (normalizeRefToken (str "@eX"))) :=
  ⟨by decide,
   c10_non_eref_token_delegated_to_engine
     (some ⟨some [], some (str "#frame"), some RefsMode.roleMode⟩) (str "@eX")
     (by decide)⟩

-- ── Association list lemmas ──

theorem isPrefixOfC_append (x y : Str) : isPrefixOfC x (x ++ y) = true := by
  induction x with
  | nil => rfl
  | cons a as ih => simp [isPrefixOfC, ih]

theorem lookupA_eq_none_of_not_mem {β : Type} (m : List (Str × β)) (k : Str)
    (h : k ∉ m.map Prod.fst) : lookupA m k = none := by
  induction m with
  | nil => rfl
  | cons p rest ih =>
    simp only [List.map_cons, List.mem_cons] at h
    push_neg at h
    simp [lookupA, Ne.symm h.1, ih h.2]

theorem lookupA_of_mem_nodup {β : Type} (m : List (Str × β)) (k : Str) (v : β)
    (hn : (m.map Prod.fst).Nodup) (hm : (k, v) ∈ m) : lookupA m k = some v := by
  induction m with
  | nil => simp at hm
  | cons p rest ih =>
    simp only [List.map_cons, List.nodup_cons] at hn
    rcases List.mem_cons.mp hm with h | h
    · subst h; simp [lookupA]
    · have hk : p.1 ≠ k := by
        intro e
        exact hn.1 (e ▸ (List.mem_map.mpr ⟨(k, v), h, rfl⟩))
      simp [lookupA, hk, ih hn.2 h]

theorem setA_fresh {β : Type} (m : List (Str × β)) (k : Str) (v : β)
    (h : k ∉ m.map Prod.fst) : setA m k v = m ++ [(k, v)] := by
  induction m with
  | nil => rfl
  | cons p rest ih =>
    simp only [List.map_cons, List.mem_cons] at h
    push_neg at h
    simp [setA, Ne.symm h.1, ih h.2]

theorem setA_keys_of_mem {β : Type} (m : List (Str × β)) (k : Str) (v : β)
    (h : k ∈ m.map Prod.fst) : (setA m k v).map Prod.fst = m.map Prod.fst := by
  induction m with
  | nil => simp at h
  | cons p rest ih =>
    by_cases hk : p.1 = k
    · simp [setA, hk]
    · simp only [List.map_cons, List.mem_cons] at h
      rcases h with h | h
    -- h : k = p.1 contradicts hk, or k in rest
      · exact absurd h.symm hk
      · simp [setA, hk, ih h]

theorem setA_length_of_mem {β : Type} (m : List (Str × β)) (k : Str) (v : β)
    (h : k ∈ m.map Prod.fst) : (setA m k v).length = m.length := by
  have := setA_keys_of_mem m k v h
  have h1 : ((setA m k v).map Prod.fst).length = (m.map Prod.fst).length := by rw [this]
  simpa using h1

-- ═══ Claim C7 ═══

/-- Claim C7: `restoreRoleRefsForTarget` never overwrites a live page state
that already holds a ref table (even an empty table object is "present"):
whenever the page's live state has `roleRefs` set, the call returns the
state unchanged — table, frame-selector scope and addressing mode all kept;
and it populates the live state from the cache entry exactly when no
current table exists. -/
theorem c7_restore_never_overwrites_live_table
    (cdpUrl : Str) (targetId : Option Str) (cache : RoleRefsCache)
    (s : PageState) :
    (∀ tbl, s.roleRefs = some tbl →
      restoreRoleRefsForTarget cdpUrl targetId (some s) cache = some s) ∧
    (∀ entry, s.roleRefs = none →
      jsTrim (targetId.getD []) ≠ [] →
      lookupA cache (roleRefsKey cdpUrl (jsTrim (targetId.getD []))) = some entry →
      restoreRoleRefsForTarget cdpUrl targetId (some s) cache =
        some ⟨some entry.refs, entry.frameSelector, entry.mode⟩) := by
  constructor
  · intro tbl htbl
    unfold restoreRoleRefsForTarget
    by_cases ht : jsTrim (targetId.getD []) = []
    · simp [ht]
    · simp only [ht, if_false]
      cases hl : lookupA cache (roleRefsKey cdpUrl (jsTrim (targetId.getD []))) with
      | none => rfl
      | some entry => simp [ensurePageState, htbl]
  · intro entry hnone ht hl
    unfold restoreRoleRefsForTarget
    simp only [ht, if_false, hl, ensurePageState, Option.getD_some, hnone,
      Option.isSome_none, Bool.false_eq_true, if_false]

theorem c7_restore_never_overwrites_live_table_witness :
    restoreRoleRefsForTarget (str "u") (some (str "t"))
      (some ⟨some [(str "e1", ⟨str "button", none, none⟩)], some (str "#f"),
             some RefsMode.roleMode⟩)
      [(roleRefsKey (str "u") (str "t"), ⟨[], none, some RefsMode.ariaMode⟩)]
      = some ⟨some [(str "e1", ⟨str "button", none, none⟩)], some (str "#f"),
              some RefsMode.roleMode⟩ ∧
    restoreRoleRefsForTarget (str "u") (some (str "t"))
      (some ⟨none, none, none⟩)
      [(roleRefsKey (str "u") (str "t"), ⟨[], none, some RefsMode.ariaMode⟩)]
      = some ⟨some [], none, some RefsMode.ariaMode⟩ :=
  ⟨(c7_restore_never_overwrites_live_table (str "u") (some (str "t"))
      [(roleRefsKey (str "u") (str "t"), ⟨[], none, some RefsMode.ariaMode⟩)]
      ⟨some [(str "e1", ⟨str "button", none, none⟩)], some (str "#f"),
       some RefsMode.roleMode⟩).1
      [(str "e1", ⟨str "button", none, none⟩)] (by decide),
   (c7_restore_never_overwrites_live_table (str "u") (some (str "t"))
      [(roleRefsKey (str "u") (str "t"), ⟨[], none, some RefsMode.ariaMode⟩)]
      ⟨none, none, none⟩).2
      ⟨[], none, some RefsMode.ariaMode⟩ (by decide) (by decide) (by decide)⟩

-- ═══ Claim C8 ═══

/-- Claim C8 counterexample: cache keys are purged by string-prefix match
against `normalize(E) + "::"`, so disconnecting endpoint `"a"` also removes
an entry that was stored under the different endpoint `"a::b"` (its key
`"a::b::t"` starts with `"a::"`).  This falsifies "no entry whose
connection component differs from E is removed". -/
theorem c8_counterexample :
    normalizeCdpUrl (str "a::b") ≠ normalizeCdpUrl (str "a") ∧
    purgeConnectionRefs
      [(roleRefsKey (str "a::b") (str "t"), ⟨[], none, none⟩)] (str "a") = [] := by
  constructor
  · decide
  · rfl

/-- Claim C8 (amended): on a connection-level disconnect for endpoint `E`,
every cache entry whose key's connection component equals `E` is removed;
an entry is removed exactly when its key string starts with
`normalize(E) + "::"`, so an entry of a differing connection survives
unless its key happens to begin with that prefix (possible only when
endpoint strings themselves contain `':'` characters). -/
theorem c8_disconnect_purges_exactly_prefixed_entries
    (cache : RoleRefsCache) (cdpUrl : Str) :
    (∀ targetId, lookupA (purgeConnectionRefs cache cdpUrl)
        (roleRefsKey cdpUrl targetId) = none) ∧
    (∀ p, p ∈ cache →
      (p ∈ purgeConnectionRefs cache cdpUrl ↔
        isPrefixOfC (normalizeCdpUrl cdpUrl ++ [':', ':']) p.1 = false)) := by
  constructor
  · intro targetId
    induction cache with
    | nil => rfl
    | cons p rest ih =>
      unfold purgeConnectionRefs at ih ⊢
      by_cases hp : isPrefixOfC (normalizeCdpUrl cdpUrl ++ [':', ':']) p.1 = true
      · simp only [List.filter_cons, hp, Bool.not_true, if_false]
        exact ih
      · have hp' : isPrefixOfC (normalizeCdpUrl cdpUrl ++ [':', ':']) p.1 = false :=
          Bool.eq_false_iff.mpr hp
        simp only [List.filter_cons, hp', Bool.not_false, if_true]
        have hkey : p.1 ≠ roleRefsKey cdpUrl targetId := by
          intro e
          rw [e] at hp'
          have := isPrefixOfC_append (normalizeCdpUrl cdpUrl ++ [':', ':']) targetId
          simp only [roleRefsKey] at hp'
          rw [List.append_assoc] at this
          simp only [List.cons_append, List.nil_append] at this hp'
          rw [hp'] at this
          exact Bool.false_ne_true this
        simp [lookupA, hkey]
        exact ih
  · intro p hp
    unfold purgeConnectionRefs
    constructor
    · intro hmem
      have := (List.mem_filter.mp hmem).2
      simpa using this
    · intro hfalse
      exact List.mem_filter.mpr ⟨hp, by simp [hfalse]⟩

theorem c8_disconnect_purges_exactly_prefixed_entries_witness :
    lookupA
      (purgeConnectionRefs
        [(roleRefsKey (str "a") (str "t1"), ⟨[], none, none⟩),
         (roleRefsKey (str "b") (str "t2"), ⟨[], none, some RefsMode.roleMode⟩)]
        (str "a"))
      (roleRefsKey (str "a") (str "t1")) = none ∧
    (roleRefsKey (str "b") (str "t2"), (⟨[], none, some RefsMode.roleMode⟩ : CacheEntry)) ∈
      purgeConnectionRefs
        [(roleRefsKey (str "a") (str "t1"), ⟨[], none, none⟩),
         (roleRefsKey (str "b") (str "t2"), ⟨[], none, some RefsMode.roleMode⟩)]
        (str "a") :=
  ⟨(c8_disconnect_purges_exactly_prefixed_entries _ (str "a")).1 (str "t1"),
   ((c8_disconnect_purges_exactly_prefixed_entries _ (str "a")).2 _
      (by decide)).mpr (by decide)⟩

-- ═══ Claim C6 ═══

/-- One call's worth of arguments to `storeRoleRefsForTarget`. -/
structure StoreOp where
  cdpUrl : Str
  targetId : Str
  refs : RoleRefs
  frameSelector : Option Str
  mode : Option RefsMode

def opKey (op : StoreOp) : Str := roleRefsKey op.cdpUrl (jsTrim op.targetId)

def storedEntry (op : StoreOp) : CacheEntry :=
  ⟨op.refs, optTruthy op.frameSelector, op.mode⟩

/-- A sequence of `storeRoleRefsForTarget` calls, tracking the cache. -/
def storeOps (ops : List StoreOp) (cache : RoleRefsCache) : RoleRefsCache :=
  ops.foldl
    (fun c op =>
      (storeRoleRefsForTarget op.cdpUrl (some op.targetId) op.refs
        op.frameSelector op.mode c).2)
    cache

theorem store_cache_step (op : StoreOp) (c : RoleRefsCache)
    (ht : jsTrim op.targetId ≠ []) :
    (storeRoleRefsForTarget op.cdpUrl (some op.targetId) op.refs
        op.frameSelector op.mode c).2
      = evictOverCapacity (setA c (opKey op) (storedEntry op)) := by
  unfold storeRoleRefsForTarget
  simp [ht, opKey, storedEntry]

theorem evictOverCapacity_eq_drop (m : RoleRefsCache) :
    evictOverCapacity m = m.drop (m.length - 50) := by
  generalize hn : m.length = n
  induction n using Nat.strong_induction_on generalizing m with
  | _ n ih =>
    subst hn
    rw [evictOverCapacity]
    by_cases h : m.length > MAX_ROLE_REFS_CACHE
    · simp only [h, if_true]
      cases m with
      | nil => simp [MAX_ROLE_REFS_CACHE] at h
      | cons a as =>
        simp only [List.tail_cons]
        rw [ih as.length (Nat.lt_succ_self _) as rfl]
        simp only [MAX_ROLE_REFS_CACHE, List.length_cons, gt_iff_lt] at h ⊢
        have e2 : as.length + 1 - 50 = (as.length - 50) + 1 := by omega
        rw [e2, List.drop_succ_cons]
    · simp only [h, if_false]
      simp only [MAX_ROLE_REFS_CACHE, gt_iff_lt, not_lt] at h
      have h0 : m.length - 50 = 0 := by omega
      rw [h0, List.drop_zero]

theorem storeOps_from_empty (ops : List StoreOp) :
    (∀ op ∈ ops, jsTrim op.targetId ≠ []) →
    (ops.map opKey).Nodup →
    storeOps ops [] =
      (ops.map fun op => (opKey op, storedEntry op)).drop (ops.length - 50) := by
  induction ops using List.reverseRecOn with
  | nil => intro _ _; rfl
  | append_singleton ops op ih =>
    intro hvalid hnodup
    have hvalid' : ∀ o ∈ ops, jsTrim o.targetId ≠ [] := fun o ho =>
      hvalid o (List.mem_append.mpr (Or.inl ho))
    have hmapsplit : (ops ++ [op]).map opKey = ops.map opKey ++ [opKey op] := by
      simp
    rw [hmapsplit] at hnodup
    have hnodup' : (ops.map opKey).Nodup := (List.nodup_append.mp hnodup).1
    have hfreshkey : opKey op ∉ ops.map opKey := by
      intro hmem
      exact (List.nodup_append.mp hnodup).2.2 hmem (List.mem_singleton_self _)
    have hprev := ih hvalid' hnodup'
    have hstep : storeOps (ops ++ [op]) [] =
        (storeRoleRefsForTarget op.cdpUrl (some op.targetId) op.refs
          op.frameSelector op.mode (storeOps ops [])).2 := by
      unfold storeOps
      rw [List.foldl_append]
      rfl
    rw [hstep, store_cache_step op _
      (hvalid op (List.mem_append.mpr (Or.inr (List.mem_singleton_self _))))]
    have hkeys : (ops.map fun o => (opKey o, storedEntry o)).map Prod.fst
        = ops.map opKey := by
      simp [List.map_map, Function.comp]
    have hmemfst : opKey op ∉ (storeOps ops []).map Prod.fst := by
      rw [hprev]
      intro hmem
      have h1 : opKey op ∈ ((ops.map fun o => (opKey o, storedEntry o)).map Prod.fst) :=
        List.map_subset Prod.fst (List.drop_subset _ _) hmem
      rw [hkeys] at h1
      exact hfreshkey h1
    rw [setA_fresh _ _ _ hmemfst, hprev, evictOverCapacity_eq_drop]
    have hlenmapped : (ops.map fun o => (opKey o, storedEntry o)).length = ops.length := by
      simp
    have hmapsplit2 :
        (ops ++ [op]).map (fun o => (opKey o, storedEntry o)) =
          (ops.map fun o => (opKey o, storedEntry o)) ++ [(opKey op, storedEntry op)] := by
      simp
    rw [hmapsplit2]
    have hlen : ((ops.map fun o => (opKey o, storedEntry o)).drop (ops.length - 50) ++
        [(opKey op, storedEntry op)]).length = min ops.length 50 + 1 := by
      simp only [List.length_append, List.length_drop, hlenmapped,
        List.length_cons, List.length_nil]
      omega
    rw [hlen]
    have hlensplit : (ops ++ [op]).length = ops.length + 1 := by simp
    rw [hlensplit]
    by_cases hsmall : ops.length ≤ 50
    · have h1 : ops.length - 50 = 0 := by omega
      have h2 : min ops.length 50 + 1 - 50 = ops.length + 1 - 50 := by omega
      rw [h1, h2, List.drop_zero]
    · have h1 : min ops.length 50 + 1 - 50 = 1 := by omega
      rw [h1]
      have hlendrop :
          1 ≤ ((ops.map fun o => (opKey o, storedEntry o)).drop (ops.length - 50)).length := by
        simp only [List.length_drop, hlenmapped]
        omega
      rw [List.drop_append_of_le_length hlendrop, List.drop_drop]
      have h2 : ops.length + 1 - 50 = 1 + (ops.length - 50) := by omega
      have h3 : 1 + (ops.length - 50) ≤ (ops.map fun o => (opKey o, storedEntry o)).length := by
        rw [hlenmapped]; omega
      rw [h2, List.drop_append_of_le_length h3]
      have h4 : ops.length - 50 + 1 = 1 + (ops.length - 50) := by omega
      rw [h4]

/-- Claim C6: the session ref cache is capacity-bounded at
`MAX_ROLE_REFS_CACHE = 50` with FIFO eviction.  Storing 51 entries with
pairwise-distinct keys into an empty cache leaves the first-stored key
absent and all 50 later keys present with their stored values; and
re-storing an existing key rewrites the value in place without changing
the key order of the cache (so its eviction position is unchanged). -/
theorem c6_cache_capacity_fifo :
    (∀ (op0 : StoreOp) (rest : List StoreOp),
      (∀ op ∈ op0 :: rest, jsTrim op.targetId ≠ []) →
      ((op0 :: rest).map opKey).Nodup →
      rest.length = MAX_ROLE_REFS_CACHE →
      lookupA (storeOps (op0 :: rest) []) (opKey op0) = none ∧
      ∀ op ∈ rest,
        lookupA (storeOps (op0 :: rest) []) (opKey op) = some (storedEntry op)) ∧
    (∀ (cache : RoleRefsCache) (op : StoreOp),
      jsTrim op.targetId ≠ [] →
      opKey op ∈ cache.map Prod.fst →
      cache.length ≤ MAX_ROLE_REFS_CACHE →
      ((storeRoleRefsForTarget op.cdpUrl (some op.targetId) op.refs
          op.frameSelector op.mode cache).2).map Prod.fst
        = cache.map Prod.fst) := by
  constructor
  · intro op0 rest hvalid hnodup hlen
    have hfinal := storeOps_from_empty (op0 :: rest) hvalid hnodup
    have hlen51 : (op0 :: rest).length - 50 = 1 := by
      simp only [List.length_cons, hlen, MAX_ROLE_REFS_CACHE]
    rw [hlen51] at hfinal
    have hmapped : (op0 :: rest).map (fun op => (opKey op, storedEntry op)) =
        (opKey op0, storedEntry op0) :: rest.map (fun op => (opKey op, storedEntry op)) := by
      simp
    rw [hmapped, List.drop_succ_cons, List.drop_zero] at hfinal
    have hkeys : (rest.map (fun op => (opKey op, storedEntry op))).map Prod.fst
        = rest.map opKey := by
      simp [List.map_map, Function.comp]
    simp only [List.map_cons, List.nodup_cons] at hnodup
    constructor
    · rw [hfinal]
      apply lookupA_eq_none_of_not_mem
      rw [hkeys]
      exact hnodup.1
    · intro op hop
      rw [hfinal]
      apply lookupA_of_mem_nodup
      · rw [hkeys]; exact hnodup.2
      · exact List.mem_map.mpr ⟨op, hop, rfl⟩
  · intro cache op ht hmem hcap
    rw [store_cache_step op cache ht, evictOverCapacity_eq_drop]
    have hlen : (setA cache (opKey op) (storedEntry op)).length = cache.length :=
      setA_length_of_mem cache (opKey op) (storedEntry op) hmem
    have h0 : (setA cache (opKey op) (storedEntry op)).length - 50 = 0 := by
      rw [hlen]
      simp only [MAX_ROLE_REFS_CACHE] at hcap
      omega
    rw [h0, List.drop_zero]
    exact setA_keys_of_mem cache (opKey op) (storedEntry op) hmem

/-- Concrete 51-op instance for the C6 witness: one fixed endpoint, target
ids `"0"`, `"1"`, …, `"50"`. -/
def c6op (i : Nat) : StoreOp := ⟨str "u", natDigits i, [], none, none⟩

def c6rest : List StoreOp := (List.range MAX_ROLE_REFS_CACHE).map fun i => c6op (i + 1)

theorem c6_cache_capacity_fifo_witness :
    (lookupA (storeOps (c6op 0 :: c6rest) []) (opKey (c6op 0)) = none ∧
     ∀ op ∈ c6rest,
       lookupA (storeOps (c6op 0 :: c6rest) []) (opKey op) = some (storedEntry op)) ∧
    ((storeRoleRefsForTarget (c6op 0).cdpUrl (some (c6op 0).targetId) (c6op 0).refs
        (c6op 0).frameSelector (c6op 0).mode
        [(opKey (c6op 0), storedEntry (c6op 0))]).2).map Prod.fst
      = [(opKey (c6op 0), storedEntry (c6op 0))].map Prod.fst :=
  ⟨c6_cache_capacity_fifo.1 (c6op 0) c6rest (by decide) (by decide) (by decide),
   c6_cache_capacity_fifo.2 [(opKey (c6op 0), storedEntry (c6op 0))] (c6op 0)
     (by decide) (by decide) (by decide)⟩

-- ═══ Claim C9 ═══

/-- Claim C9: the snapshot builder is total on malformed input — it is a
total function by construction, and a line that fails the parsing regular
expression never contributes a ref or aborts anything: the interactive-mode
loop body leaves the state (output, refs, counter, tracker) untouched, and
the full-tree-mode loop body passes the line through to the output
unannotated (or drops it when the depth filter applies first), leaving
refs, counter and tracker untouched. -/
theorem c9_malformed_line_tolerated
    (options : SnapshotBuildOptions) (st : BuildSt) (line : Str)
    (hmal : lineMatch line = none) :
    interProcessLine options st line = st ∧
    fullProcessLine options st line =
      (if depthSkip options line then st
       else { st with out := st.out ++ [line] }) := by
  constructor
  · unfold interProcessLine
    by_cases hd : depthSkip options line
    · simp [hd]
    · simp [hd, hmal]
  · unfold fullProcessLine
    by_cases hd : depthSkip options line
    · simp [hd]
    · simp [hd, hmal]

theorem c9_malformed_line_tolerated_witness :
    lineMatch (str "<garbage, no dash>") = none ∧
    interProcessLine {} initSt (str "<garbage, no dash>") = initSt ∧
    fullProcessLine {} initSt (str "<garbage, no dash>") =
      { initSt with out := initSt.out ++ [str "<garbage, no dash>"] } := by
  refine ⟨by decide, ?_, ?_⟩
  · exact (c9_malformed_line_tolerated {} initSt (str "<garbage, no dash>") (by decide)).1
  · have h := (c9_malformed_line_tolerated {} initSt (str "<garbage, no dash>") (by decide)).2
    simpa [depthSkip] using h

-- ═══ Claim C3 ═══

theorem splitLines_no_newline (s : Str) : ∀ l ∈ splitLines s, '\n' ∉ l := by
  induction s with
  | nil =>
    intro l hl
    simp only [splitLines, List.mem_singleton] at hl
    simp [hl]
  | cons c cs ih =>
    intro l hl
    by_cases hc : c = '\n'
    · simp only [splitLines, hc, if_true] at hl
      rcases List.mem_cons.mp hl with h | h
      · simp [h]
      · exact ih l h
    · simp only [splitLines, hc, if_false] at hl
      cases hsp : splitLines cs with
      | nil =>
        rw [hsp] at hl
        simp only [List.mem_singleton] at hl
        subst hl
        intro hmem
        simp only [List.mem_singleton] at hmem
        exact hc hmem.symm
      | cons x xs =>
        rw [hsp] at hl
        rcases List.mem_cons.mp hl with h | h
        · subst h
          intro hmem
          rcases List.mem_cons.mp hmem with h | h
          · exact hc h.symm
          · exact ih x (hsp ▸ List.mem_cons_self x xs) h
        · exact ih l (hsp ▸ List.mem_cons_of_mem x h)

theorem splitLines_of_no_newline (l : Str) (h : '\n' ∉ l) : splitLines l = [l] := by
  induction l with
  | nil => rfl
  | cons c cs ih =>
    have hc : ¬ c = '\n' := fun e => h (e ▸ List.mem_cons_self c cs)
    have hcs : '\n' ∉ cs := fun e => h (List.mem_cons_of_mem c e)
    simp only [splitLines, hc, if_false, ih hcs]

theorem splitLines_append_newline (l t : Str) (h : '\n' ∉ l) :
    splitLines (l ++ '\n' :: t) = l :: splitLines t := by
  induction l with
  | nil => simp [splitLines]
  | cons c cs ih =>
    have hc : ¬ c = '\n' := fun e => h (e ▸ List.mem_cons_self c cs)
    have hcs : '\n' ∉ cs := fun e => h (List.mem_cons_of_mem c e)
    simp only [List.cons_append, splitLines, hc, if_false, List.append_eq, ih hcs]

theorem splitLines_joinLines (ls : List Str) (hne : ls ≠ [])
    (h : ∀ l ∈ ls, '\n' ∉ l) : splitLines (joinLines ls) = ls := by
  induction ls with
  | nil => exact absurd rfl hne
  | cons l rest ih =>
    cases rest with
    | nil =>
      show splitLines (joinLines [l]) = [l]
      exact splitLines_of_no_newline l (h l (List.mem_cons_self _ _))
    | cons l2 rest2 =>
      show splitLines (l ++ '\n' :: joinLines (l2 :: rest2)) = l :: l2 :: rest2
      rw [splitLines_append_newline l _ (h l (List.mem_cons_self _ _))]
      rw [ih (by simp) (fun x hx => h x (List.mem_cons_of_mem l hx))]

theorem compactLines_subset (ls : List Str) : ∀ l ∈ compactLines ls, l ∈ ls := by
  induction ls with
  | nil => intro l hl; simp [compactLines] at hl
  | cons x rest ih =>
    intro l hl
    unfold compactLines at hl
    by_cases hk : compactKeep x rest
    · rw [if_pos hk] at hl
      rcases List.mem_cons.mp hl with h | h
      · exact h ▸ List.mem_cons_self x rest
      · exact List.mem_cons_of_mem x (ih l h)
    · rw [if_neg hk] at hl
      exact List.mem_cons_of_mem x (ih l hl)

/-- Lines kept by compaction still witness a ref-carrying descendant: the
forward scan succeeds on the compacted tail whenever it succeeded on the
original tail, because every ref-carrying line is itself kept and the kept
lines in between keep their (deep) indentation. -/
theorem scanChildren_compactLines (n : Nat) (ls : List Str)
    (h : scanChildren n ls = true) : scanChildren n (compactLines ls) = true := by
  induction ls with
  | nil => simp [scanChildren] at h
  | cons x rest ih =>
    unfold scanChildren at h
    by_cases hind : getIndentLevel x ≤ n
    · rw [if_pos hind] at h; exact absurd h (by simp)
    · rw [if_neg hind] at h
      by_cases href : hasSub refMark x = true
      · have hkeep : compactKeep x rest = true := by
          unfold compactKeep; rw [if_pos href]
        unfold compactLines
        rw [if_pos hkeep]
        unfold scanChildren
        rw [if_neg hind, if_pos href]
      · rw [if_neg href] at h
        unfold compactLines
        by_cases hk : compactKeep x rest
        · rw [if_pos hk]
          unfold scanChildren
          rw [if_neg hind, if_neg href]
          exact ih h
        · rw [if_neg hk]
          exact ih h

theorem compactKeep_compactLines (x : Str) (ls : List Str)
    (h : compactKeep x ls = true) : compactKeep x (compactLines ls) = true := by
  unfold compactKeep at h ⊢
  by_cases href : hasSub refMark x = true
  · rw [if_pos href]
  · rw [if_neg href] at h ⊢
    by_cases hcol : (containsChar x ':' && !endsWithColon (trimEnd x)) = true
    · rw [if_pos hcol]
    · rw [if_neg hcol] at h ⊢
      exact scanChildren_compactLines _ _ h

theorem compactLines_cons (x : Str) (rest : List Str) :
    compactLines (x :: rest) =
      if compactKeep x rest then x :: compactLines rest else compactLines rest := rfl

theorem compactLines_idem (ls : List Str) :
    compactLines (compactLines ls) = compactLines ls := by
  induction ls with
  | nil => rfl
  | cons x rest ih =>
    rw [compactLines_cons]
    by_cases hk : compactKeep x rest
    · rw [if_pos hk, compactLines_cons,
        if_pos (compactKeep_compactLines x rest hk), ih]
    · rw [if_neg hk]
      exact ih

/-- Claim C3: tree compaction is idempotent — re-running `compactTree` on
its own output is a no-op, for every input string. -/
theorem c3_compactTree_idempotent (x : Str) :
    compactTree (compactTree x) = compactTree x := by
  unfold compactTree
  by_cases hout : compactLines (splitLines x) = []
  · rw [hout]
    show joinLines (compactLines (splitLines (joinLines []))) = joinLines []
    have h1 : compactLines (splitLines (joinLines [])) = [] := by decide
    rw [h1]
  · rw [splitLines_joinLines _ hout
      (fun l hl => splitLines_no_newline x l (compactLines_subset _ l hl))]
    rw [compactLines_idem]

-- ═══ Claim C1 ═══

def keyOf (e : RoleRefInfo) : Str := getKey e.role e.name

/-- Number of table entries sharing a tracker key. -/
def keyCount (refs : RoleRefs) (k : Str) : Nat :=
  (refs.filter fun p => keyOf p.2 = k).length

theorem lookupA_setA_self {β : Type} (m : List (Str × β)) (k : Str) (v : β) :
    lookupA (setA m k v) k = some v := by
  induction m with
  | nil => simp [setA, lookupA]
  | cons p rest ih =>
    by_cases hp : p.1 = k
    · simp [setA, hp, lookupA]
    · simp [setA, hp, lookupA, ih]

theorem lookupA_setA_ne {β : Type} (m : List (Str × β)) (k k' : Str) (v : β)
    (h : k' ≠ k) : lookupA (setA m k v) k' = lookupA m k' := by
  induction m with
  | nil => simp [setA, lookupA, Ne.symm h]
  | cons p rest ih =>
    by_cases hp : p.1 = k
    · simp [setA, hp, lookupA, Ne.symm h]
    · simp [setA, hp, lookupA, ih]

theorem keyCount_append_singleton (refs : RoleRefs) (p : Str × RoleRefInfo) (k : Str) :
    keyCount (refs ++ [p]) k
      = keyCount refs k + if keyOf p.2 = k then 1 else 0 := by
  unfold keyCount
  rw [List.filter_append]
  by_cases hp : keyOf p.2 = k
  · simp [hp]
  · simp [hp]

theorem keyFilter_append_singleton (refs : RoleRefs) (p : Str × RoleRefInfo) (k : Str) :
    ((refs ++ [p]).filter fun q => keyOf q.2 = k).map Prod.fst
      = (refs.filter fun q => keyOf q.2 = k).map Prod.fst
        ++ if keyOf p.2 = k then [p.1] else [] := by
  rw [List.filter_append, List.map_append]
  by_cases hp : keyOf p.2 = k
  · simp [hp]
  · simp [hp]

theorem append_singleton_cases {α : Type} (l : List α) (x : α)
    (pre : List α) (p : α) (post : List α) (h : l ++ [x] = pre ++ p :: post) :
    (pre = l ∧ p = x ∧ post = []) ∨
    (∃ post2, post = post2 ++ [x] ∧ l = pre ++ p :: post2) := by
  cases post using List.reverseRecOn with
  | nil =>
    left
    obtain ⟨h1, h2⟩ := List.append_inj' h rfl
    injection h2 with h3 _
    exact ⟨h1.symm, h3.symm, rfl⟩
  | append_singleton post2 y =>
    right
    have h2 : l ++ [x] = (pre ++ p :: post2) ++ [y] := by
      rw [h]; simp
    obtain ⟨h3, h4⟩ := List.append_inj' h2 rfl
    injection h4 with h5 _
    exact ⟨post2, by rw [h5], h3⟩

/-- The invariant tying the tracker's two maps to the ref table built so
far: counts record how many same-key entries exist, `refsByKey` records
their refs in order, and every entry's (pre-cleanup) `nth` equals the
number of earlier same-key entries. -/
structure TrackerInv (refs : RoleRefs) (t : Tracker) : Prop where
  counts_eq : ∀ k, (lookupA t.counts k).getD 0 = keyCount refs k
  byKey_eq : ∀ k, (lookupA t.refsByKey k).getD []
      = (refs.filter fun p => keyOf p.2 = k).map Prod.fst
  nth_eq : ∀ pre p post, refs = pre ++ p :: post →
      p.2.nth = some (keyCount pre (keyOf p.2))

theorem trackerInv_init : TrackerInv [] Tracker.empty := by
  constructor
  · intro k; rfl
  · intro k; rfl
  · intro pre p post hx
    exact absurd hx.symm (by simp)

theorem trackerInv_add (refs : RoleRefs) (t : Tracker) (role : Str)
    (name : Option Str) (ref : Str) (e : RoleRefInfo) (h : TrackerInv refs t)
    (he : e = ⟨role, name, some ((lookupA t.counts (getKey role name)).getD 0)⟩) :
    TrackerInv (refs ++ [(ref, e)])
      ⟨setA t.counts (getKey role name)
         ((lookupA t.counts (getKey role name)).getD 0 + 1),
       setA t.refsByKey (getKey role name)
         ((lookupA t.refsByKey (getKey role name)).getD [] ++ [ref])⟩ := by
  have hkey : keyOf e = getKey role name := by rw [he]; rfl
  constructor
  · intro k
    by_cases hk : k = getKey role name
    · subst hk
      rw [lookupA_setA_self, Option.getD_some, keyCount_append_singleton]
      rw [hkey, if_pos rfl, h.counts_eq]
    · rw [lookupA_setA_ne _ _ _ _ hk, keyCount_append_singleton, hkey,
        if_neg (fun eq => hk eq.symm), Nat.add_zero, h.counts_eq]
  · intro k
    by_cases hk : k = getKey role name
    · subst hk
      rw [lookupA_setA_self, Option.getD_some, keyFilter_append_singleton,
        hkey, if_pos rfl, h.byKey_eq]
    · rw [lookupA_setA_ne _ _ _ _ hk, keyFilter_append_singleton, hkey,
        if_neg (fun eq => hk eq.symm), List.append_nil, h.byKey_eq]
  · intro pre p post hsplit
    rcases append_singleton_cases refs (ref, e) pre p post hsplit with
      ⟨hpre, hp, -⟩ | ⟨post2, hpost, hrefs⟩
    · subst hp
      rw [hpre]
      show e.nth = some (keyCount refs (keyOf e))
      rw [hkey, he, ← h.counts_eq]
    · exact h.nth_eq pre p post2 hrefs

theorem trackerInv_interStep (options : SnapshotBuildOptions) (st : BuildSt)
    (line : Str) (h : TrackerInv st.refs st.tracker) :
    TrackerInv (interProcessLine options st line).refs
      (interProcessLine options st line).tracker := by
  unfold interProcessLine
  split
  · exact h
  · split
    · exact h
    · rename_i parts heq
      split
      · exact h
      · simp only [getNextIndex, trackRef]
        by_cases hrole : lowerStr parts.roleRaw ∈ INTERACTIVE_ROLES
        · rw [if_pos hrole]
          exact trackerInv_add st.refs st.tracker _ _ _ _ h rfl
        · rw [if_neg hrole]
          exact h

theorem trackerInv_fullStep (options : SnapshotBuildOptions) (st : BuildSt)
    (line : Str) (h : TrackerInv st.refs st.tracker) :
    TrackerInv (fullProcessLine options st line).refs
      (fullProcessLine options st line).tracker := by
  unfold fullProcessLine
  split
  · exact h
  · split
    · exact h
    · rename_i parts heq
      split
      · exact h
      · simp only [getNextIndex, trackRef]
        by_cases hskip : (options.compact
            && decide (lowerStr parts.roleRaw ∈ STRUCTURAL_ROLES)
            && !nameTruthy parts.name) = true
        · rw [if_pos hskip]
          exact h
        · rw [if_neg hskip]
          by_cases haddr : (!(decide (lowerStr parts.roleRaw ∈ INTERACTIVE_ROLES)
              || decide (lowerStr parts.roleRaw ∈ CONTENT_ROLES)
                && nameTruthy parts.name)) = true
          · rw [if_pos haddr]
            exact h
          · rw [if_neg haddr]
            exact trackerInv_add st.refs st.tracker _ _ _ _ h rfl

theorem trackerInv_foldl_inter (options : SnapshotBuildOptions)
    (lines : List Str) (st : BuildSt) (h : TrackerInv st.refs st.tracker) :
    TrackerInv (lines.foldl (interProcessLine options) st).refs
      (lines.foldl (interProcessLine options) st).tracker := by
  induction lines generalizing st with
  | nil => exact h
  | cons l rest ih => exact ih _ (trackerInv_interStep options st l h)

theorem trackerInv_foldl_full (options : SnapshotBuildOptions)
    (lines : List Str) (st : BuildSt) (h : TrackerInv st.refs st.tracker) :
    TrackerInv (lines.foldl (fullProcessLine options) st).refs
      (lines.foldl (fullProcessLine options) st).tracker := by
  induction lines generalizing st with
  | nil => exact h
  | cons l rest ih => exact ih _ (trackerInv_fullStep options st l h)

theorem keyOf_strip (t : Tracker) (p : Str × RoleRefInfo) :
    keyOf (if isDuplicateKey t (getKey p.2.role p.2.name) then p
           else (p.1, { p.2 with nth := none })).2 = keyOf p.2 := by
  by_cases hd : isDuplicateKey t (getKey p.2.role p.2.name) = true
  · rw [if_pos hd]
  · rw [if_neg hd]
    rfl

theorem keyCount_map_strip (l : RoleRefs) (t : Tracker) (k : Str) :
    keyCount (l.map fun p =>
        if isDuplicateKey t (getKey p.2.role p.2.name) then p
        else (p.1, { p.2 with nth := none })) k = keyCount l k := by
  unfold keyCount
  rw [List.filter_map, List.length_map]
  congr 1
  apply List.filter_congr
  intro p _
  simp only [Function.comp_apply]
  rw [keyOf_strip]

theorem keyCount_removeNth (refs : RoleRefs) (t : Tracker) (k : Str) :
    keyCount (removeNthFromNonDuplicates refs t) k = keyCount refs k := by
  unfold removeNthFromNonDuplicates
  exact keyCount_map_strip refs t k

theorem keyCount_cons_self_pos (pre : RoleRefs) (p : Str × RoleRefInfo)
    (post : RoleRefs) : 1 ≤ keyCount (pre ++ p :: post) (keyOf p.2) := by
  unfold keyCount
  rw [List.filter_append]
  rw [List.length_append]
  have hmem : p ∈ (p :: post).filter (fun q => keyOf q.2 = keyOf p.2) :=
    List.mem_filter.mpr ⟨List.mem_cons_self _ _, by simp⟩
  have hpos : 0 < ((p :: post).filter (fun q => keyOf q.2 = keyOf p.2)).length :=
    List.length_pos.mpr (List.ne_nil_of_mem hmem)
  omega

theorem isDuplicateKey_iff_keyCount (refs : RoleRefs) (t : Tracker) (k : Str)
    (h : TrackerInv refs t) :
    isDuplicateKey t k = true ↔ 1 < keyCount refs k := by
  have hb := h.byKey_eq k
  unfold isDuplicateKey
  cases hl : lookupA t.refsByKey k with
  | none =>
    rw [hl] at hb
    simp only [Option.getD_none] at hb
    have hz : keyCount refs k = 0 := by
      unfold keyCount
      have hlen := congrArg List.length hb
      rw [List.length_nil, List.length_map] at hlen
      exact hlen.symm
    constructor
    · intro hfalse
      exact absurd hfalse (by simp)
    · intro hlt
      rw [hz] at hlt
      omega
  | some l =>
    rw [hl] at hb
    simp only [Option.getD_some] at hb
    have hlen : l.length = keyCount refs k := by
      rw [hb, List.length_map]
      rfl
    simp only [gt_iff_lt, decide_eq_true_eq, hlen]

/-- After `removeNthFromNonDuplicates`, an entry whose tracker key is
shared by exactly one table entry has no `nth`, and an entry whose key is
shared by several entries keeps `nth` equal to the number of earlier
same-key entries. -/
theorem stripped_refs_spec (refs0 : RoleRefs) (t : Tracker)
    (h : TrackerInv refs0 t)
    (pre : RoleRefs) (p : Str × RoleRefInfo) (post : RoleRefs)
    (hsplit : removeNthFromNonDuplicates refs0 t = pre ++ p :: post) :
    (keyCount (removeNthFromNonDuplicates refs0 t) (keyOf p.2) = 1 →
       p.2.nth = none) ∧
    (keyCount (removeNthFromNonDuplicates refs0 t) (keyOf p.2) ≠ 1 →
       p.2.nth = some (keyCount pre (keyOf p.2))) := by
  have hsplit' := hsplit
  unfold removeNthFromNonDuplicates at hsplit'
  rw [List.map_eq_append_iff] at hsplit'
  obtain ⟨pre0, rest0, hrefs0, hpre0, hrest0⟩ := hsplit'
  rw [List.map_eq_cons_iff] at hrest0
  obtain ⟨p0, post0, hrest0eq, hp0, hpost0⟩ := hrest0
  subst hrest0eq
  have hkeq : keyOf p.2 = keyOf p0.2 := by
    rw [← hp0]
    exact keyOf_strip t p0
  have hkc : keyCount (removeNthFromNonDuplicates refs0 t) (keyOf p.2)
      = keyCount refs0 (keyOf p0.2) := by
    rw [keyCount_removeNth, hkeq, hrefs0]
  have hkckey : getKey p0.2.role p0.2.name = keyOf p0.2 := rfl
  have hpos : 1 ≤ keyCount refs0 (keyOf p0.2) := by
    rw [hrefs0]
    exact keyCount_cons_self_pos pre0 p0 post0
  have hpre_count : keyCount pre (keyOf p0.2) = keyCount pre0 (keyOf p0.2) := by
    rw [← hpre0]
    exact keyCount_map_strip pre0 t (keyOf p0.2)
  constructor
  · intro hone
    rw [hkc] at hone
    have hdup : isDuplicateKey t (keyOf p0.2) = false := by
      rw [← Bool.not_eq_true, isDuplicateKey_iff_keyCount refs0 t _ h, hone]
      omega
    rw [← hp0, if_neg (by rw [hkckey, hdup]; exact Bool.false_ne_true)]
  · intro hne
    rw [hkc] at hne
    have hdup : isDuplicateKey t (keyOf p0.2) = true := by
      rw [isDuplicateKey_iff_keyCount refs0 t _ h]
      omega
    rw [← hp0, if_pos (by rw [hkckey]; exact hdup), hpre_count]
    exact h.nth_eq pre0 p0 post0 hrefs0

theorem builtRefs_eq (input : Str) (options : SnapshotBuildOptions) :
    (buildRoleSnapshotFromAriaSnapshot input options).refs
      = if options.interactive then
          removeNthFromNonDuplicates
            ((splitLines input).foldl (interProcessLine options) initSt).refs
            ((splitLines input).foldl (interProcessLine options) initSt).tracker
        else
          removeNthFromNonDuplicates
            ((splitLines input).foldl (fullProcessLine options) initSt).refs
            ((splitLines input).foldl (fullProcessLine options) initSt).tracker := by
  by_cases hI : options.interactive = true
  · simp only [buildRoleSnapshotFromAriaSnapshot, hI, if_true]
  · simp only [buildRoleSnapshotFromAriaSnapshot, Bool.not_eq_true] at hI ⊢
    simp only [hI, Bool.false_eq_true, if_false]

/-- Claim C1: during the single top-to-bottom traversal each new
addressable element's `nth` is the current count of its `(role, name)`
tracker key (counting earlier addressable elements with the same key, in
document order), and the cleanup pass strips `nth` exactly from the
entries whose key occurs exactly once in the final table.  In particular,
for two `button "Submit"` elements and one `link "More information"` the
resulting table is e1 ↦ (button, Submit, nth 0), e2 ↦ (button, Submit,
nth 1), e3 ↦ (link, More information, no nth). -/
theorem c1_nth_index_assignment_and_cleanup :
    (∀ (input : Str) (options : SnapshotBuildOptions)
       (pre : RoleRefs) (p : Str × RoleRefInfo) (post : RoleRefs),
       (buildRoleSnapshotFromAriaSnapshot input options).refs
           = pre ++ p :: post →
       (keyCount (buildRoleSnapshotFromAriaSnapshot input options).refs
           (keyOf p.2) = 1 → p.2.nth = none) ∧
       (keyCount (buildRoleSnapshotFromAriaSnapshot input options).refs
           (keyOf p.2) ≠ 1 →
         p.2.nth = some (keyCount pre (keyOf p.2)))) ∧
    (buildRoleSnapshotFromAriaSnapshot
        (str "- button \"Submit\"\n- button \"Submit\"\n- link \"More information\"")
        {}).refs
      = [(str "e1", ⟨str "button", some (str "Submit"), some 0⟩),
         (str "e2", ⟨str "button", some (str "Submit"), some 1⟩),
         (str "e3", ⟨str "link", some (str "More information"), none⟩)] := by
  constructor
  · intro input options pre p post hsplit
    rw [builtRefs_eq] at hsplit ⊢
    by_cases hI : options.interactive = true
    · rw [if_pos hI] at hsplit ⊢
      exact stripped_refs_spec _ _
        (trackerInv_foldl_inter options (splitLines input) initSt trackerInv_init)
        pre p post hsplit
    · rw [if_neg hI] at hsplit ⊢
      exact stripped_refs_spec _ _
        (trackerInv_foldl_full options (splitLines input) initSt trackerInv_init)
        pre p post hsplit
  · decide

theorem c1_nth_index_assignment_and_cleanup_witness :
    (buildRoleSnapshotFromAriaSnapshot
        (str "- button \"Submit\"\n- button \"Submit\"\n- link \"More information\"")
        {}).refs
      = [(str "e1", ⟨str "button", some (str "Submit"), some 0⟩)]
        ++ (str "e2", ⟨str "button", some (str "Submit"), some 1⟩)
          :: [(str "e3", ⟨str "link", some (str "More information"), none⟩)] ∧
    (⟨str "button", some (str "Submit"), some 1⟩ : RoleRefInfo).nth
      = some (keyCount [(str "e1", ⟨str "button", some (str "Submit"), some 0⟩)]
          (keyOf (⟨str "button", some (str "Submit"), some 1⟩ : RoleRefInfo))) := by
  refine ⟨by decide, ?_⟩
  have h := (c1_nth_index_assignment_and_cleanup.1
    (str "- button \"Submit\"\n- button \"Submit\"\n- link \"More information\"") {}
    [(str "e1", ⟨str "button", some (str "Submit"), some 0⟩)]
    (str "e2", ⟨str "button", some (str "Submit"), some 1⟩)
    [(str "e3", ⟨str "link", some (str "More information"), none⟩)]
    (by decide)).2 (by decide)
  exact h

-- ═══ Claim C2 ═══

/-- Scanner extracting the ref tokens of a snapshot text: every occurrence
of `[ref=` starts a token that extends to the next `]` (or the end).
Structured with a fuel argument (one unit per consumed character) so that
it is primitive recursive and evaluates inside the kernel. -/
def refTokensAux : Nat → Str → List Str
  | 0, _ => []
  | _ + 1, [] => []
  | fuel + 1, c :: cs =>
    if isPrefixOfC refMark (c :: cs) then
      ((c :: cs).drop 5).takeWhile (· ≠ ']')
        :: refTokensAux fuel (((c :: cs).drop 5).dropWhile (· ≠ ']'))
    else refTokensAux fuel cs

def refTokens (l : Str) : List Str := refTokensAux l.length l

theorem refTokensAux_nil (fuel : Nat) : refTokensAux fuel [] = [] := by
  cases fuel <;> rfl

theorem refTokensAux_fuel (fuel1 : Nat) :
    ∀ (fuel2 : Nat) (l : Str), l.length ≤ fuel1 → l.length ≤ fuel2 →
    refTokensAux fuel1 l = refTokensAux fuel2 l := by
  induction fuel1 with
  | zero =>
    intro fuel2 l h1 h2
    cases l with
    | nil => rw [refTokensAux_nil, refTokensAux_nil]
    | cons c cs => simp at h1
  | succ f1 ih =>
    intro fuel2 l h1 h2
    cases l with
    | nil => rw [refTokensAux_nil, refTokensAux_nil]
    | cons c cs =>
      cases fuel2 with
      | zero => simp at h2
      | succ f2 =>
        simp only [List.length_cons] at h1 h2
        have hdroplen : (((c :: cs).drop 5).dropWhile (· ≠ ']')).length ≤ cs.length := by
          have ha := List.Sublist.length_le
            (List.dropWhile_sublist (l := (c :: cs).drop 5) (· ≠ ']'))
          have hb : ((c :: cs).drop 5).length = (c :: cs).length - 5 :=
            List.length_drop 5 (c :: cs)
          simp only [List.length_cons] at hb
          omega
        show (if isPrefixOfC refMark (c :: cs) then
            ((c :: cs).drop 5).takeWhile (· ≠ ']')
              :: refTokensAux f1 (((c :: cs).drop 5).dropWhile (· ≠ ']'))
          else refTokensAux f1 cs) =
          (if isPrefixOfC refMark (c :: cs) then
            ((c :: cs).drop 5).takeWhile (· ≠ ']')
              :: refTokensAux f2 (((c :: cs).drop 5).dropWhile (· ≠ ']'))
          else refTokensAux f2 cs)
        by_cases hP : isPrefixOfC refMark (c :: cs) = true
        · rw [if_pos hP, if_pos hP]
          congr 1
          exact ih f2 _ (by omega) (by omega)
        · rw [if_neg hP, if_neg hP]
          exact ih f2 cs (by omega) (by omega)

theorem refTokens_cons (c : Char) (cs : Str) :
    refTokens (c :: cs) =
      if isPrefixOfC refMark (c :: cs) then
        ((c :: cs).drop 5).takeWhile (· ≠ ']')
          :: refTokens (((c :: cs).drop 5).dropWhile (· ≠ ']'))
      else refTokens cs := by
  show refTokensAux (cs.length + 1) (c :: cs) = _
  have hdroplen : (((c :: cs).drop 5).dropWhile (· ≠ ']')).length ≤ cs.length := by
    have ha := List.Sublist.length_le
      (List.dropWhile_sublist (l := (c :: cs).drop 5) (· ≠ ']'))
    have hb : ((c :: cs).drop 5).length = (c :: cs).length - 5 :=
      List.length_drop 5 (c :: cs)
    simp only [List.length_cons] at hb
    omega
  show (if isPrefixOfC refMark (c :: cs) then
      ((c :: cs).drop 5).takeWhile (· ≠ ']')
        :: refTokensAux cs.length (((c :: cs).drop 5).dropWhile (· ≠ ']'))
    else refTokensAux cs.length cs) = _
  by_cases hP : isPrefixOfC refMark (c :: cs) = true
  · rw [if_pos hP, if_pos hP]
    congr 1
    exact refTokensAux_fuel cs.length _ _ hdroplen (Nat.le_refl _)
  · rw [if_neg hP, if_neg hP]
    exact refTokensAux_fuel cs.length _ cs (Nat.le_refl _) (Nat.le_refl _)

theorem isPrefixOfC_refMark_head_ne (a : Char) (rest : Str) (h : a ≠ '[') :
    isPrefixOfC refMark (a :: rest) = false := by
  simp [refMark, isPrefixOfC, Ne.symm h]

theorem refTokens_cons_skip (a : Char) (l : Str) (h : a ≠ '[') :
    refTokens (a :: l) = refTokens l := by
  rw [refTokens_cons, if_neg]
  rw [isPrefixOfC_refMark_head_ne a l h]
  exact Bool.false_ne_true

theorem refTokens_bracket_notref (l : Str)
    (h : l = [] ∨ ∀ d, l.head? = some d → d ≠ 'r') :
    refTokens ('[' :: l) = refTokens l := by
  rw [refTokens_cons, if_neg]
  rcases h with h | h
  · subst h; simp [refMark, isPrefixOfC]
  · cases l with
    | nil => simp [refMark, isPrefixOfC]
    | cons d rest =>
      have hd : d ≠ 'r' := h d rfl
      simp [refMark, isPrefixOfC, Ne.symm hd]

theorem takeWhile_ne_append_cons {α : Type} [DecidableEq α] (r : List α)
    (x : α) (b : List α) (h : x ∉ r) :
    (r ++ x :: b).takeWhile (· ≠ x) = r ∧
    (r ++ x :: b).dropWhile (· ≠ x) = x :: b := by
  induction r with
  | nil => simp [List.takeWhile, List.dropWhile]
  | cons a as ih =>
    have ha : a ≠ x := fun e => h (e ▸ List.mem_cons_self a as)
    have has : x ∉ as := fun e => h (List.mem_cons_of_mem a e)
    obtain ⟨iht, ihd⟩ := ih has
    constructor
    · simpa [List.cons_append, List.takeWhile_cons, ha] using iht
    · simpa [List.cons_append, List.dropWhile_cons, ha] using ihd

theorem refTokens_extract (r rest : Str) (hr : ']' ∉ r) :
    refTokens ('[' :: 'r' :: 'e' :: 'f' :: '=' :: (r ++ ']' :: rest))
      = r :: refTokens (']' :: rest) := by
  rw [refTokens_cons, if_pos]
  · obtain ⟨ht, hd⟩ := takeWhile_ne_append_cons r ']' rest hr
    simp only [List.drop_succ_cons, List.drop_zero]
    rw [ht, hd]
  · simp [refMark, isPrefixOfC]

theorem hasSub_cons_eq (pat : Str) (c : Char) (cs : Str) :
    hasSub pat (c :: cs) = (isPrefixOfC pat (c :: cs) || hasSub pat cs) := rfl

theorem hasSub_refMark_marker_head (y : Str) :
    hasSub refMark ('[' :: 'r' :: 'e' :: 'f' :: '=' :: y) = true := by
  rw [hasSub_cons_eq]
  have : isPrefixOfC refMark ('[' :: 'r' :: 'e' :: 'f' :: '=' :: y) = true := by
    simp [refMark, isPrefixOfC]
  rw [this]
  rfl

theorem hasSub_append_right (pat x y : Str) (h : hasSub pat y = true) :
    hasSub pat (x ++ y) = true := by
  induction x with
  | nil => exact h
  | cons a as ih =>
    rw [List.cons_append, hasSub_cons_eq, ih]
    simp

theorem refTokens_append_no_bracket (x c : Str) (h : '[' ∉ x) :
    refTokens (x ++ c) = refTokens c := by
  induction x with
  | nil => rfl
  | cons a as ih =>
    have ha : a ≠ '[' := fun e => h (e ▸ List.mem_cons_self a as)
    have has : '[' ∉ as := fun e => h (List.mem_cons_of_mem a e)
    rw [List.cons_append, refTokens_cons_skip a _ ha]
    exact ih has

/-- A continuation that is empty or starts with a character other than
`r`, `e`, `f`, `=` cannot complete a partial `[ref=` left dangling at the
end of a marker-free segment. -/
def SafeCont (c : Str) : Prop :=
  c = [] ∨ ∃ d cs, c = d :: cs ∧ d ≠ 'r' ∧ d ≠ 'e' ∧ d ≠ 'f' ∧ d ≠ '='

theorem isPrefixOfC_refMark_append_cons (a : Char) (as c : Str)
    (hx : isPrefixOfC refMark (a :: as) = false) (hc : SafeCont c) :
    isPrefixOfC refMark (a :: (as ++ c)) = false := by
  rcases hc with hc | ⟨d, cs, hceq, hr, he2, hf, heq⟩
  · subst hc
    simpa using hx
  · subst hceq
    match as with
    | [] =>
      simp [refMark, isPrefixOfC, Ne.symm hr]
    | [b1] =>
      simp [refMark, isPrefixOfC, Ne.symm he2]
    | [b1, b2] =>
      simp [refMark, isPrefixOfC, Ne.symm hf]
    | [b1, b2, b3] =>
      simp [refMark, isPrefixOfC, Ne.symm heq]
    | b1 :: b2 :: b3 :: b4 :: rest =>
      simp only [refMark, isPrefixOfC, List.cons_append] at hx ⊢
      simpa using hx

theorem refTokens_append_clean (x c : Str) (hx : hasSub refMark x = false)
    (hc : SafeCont c) : refTokens (x ++ c) = refTokens c := by
  induction x with
  | nil => rfl
  | cons a as ih =>
    rw [hasSub_cons_eq, Bool.or_eq_false_iff] at hx
    obtain ⟨hx1, hx2⟩ := hx
    rw [List.cons_append, refTokens_cons, if_neg]
    · exact ih hx2
    · rw [isPrefixOfC_refMark_append_cons a as c hx1 hc]
      exact Bool.false_ne_true

theorem natDigitsAux_digits (fuel n : Nat) :
    ∀ c ∈ natDigitsAux fuel n, ∃ d, d < 10 ∧ c = digitChar d := by
  induction fuel generalizing n with
  | zero => simp [natDigitsAux]
  | succ fuel ih =>
    intro c hc
    unfold natDigitsAux at hc
    by_cases h : n < 10
    · rw [if_pos h] at hc
      simp only [List.mem_singleton] at hc
      exact ⟨n, h, hc⟩
    · rw [if_neg h] at hc
      rcases List.mem_append.mp hc with h2 | h2
      · exact ih (n / 10) c h2
      · simp only [List.mem_singleton] at h2
        exact ⟨n % 10, Nat.mod_lt n (by omega), h2⟩

theorem digitChar_props (d : Nat) (h : d < 10) :
    digitChar d ≠ '[' ∧ digitChar d ≠ ']' ∧ digitChar d ≠ 'r' ∧
    digitChar d ≠ 'e' ∧ digitChar d ≠ 'f' ∧ digitChar d ≠ '=' ∧
    digitChar d ≠ '\n' ∧ digitChar d ≠ '"' := by
  interval_cases d <;> exact (by decide)

theorem natDigits_ne_nil (n : Nat) : natDigits n ≠ [] := by
  unfold natDigits natDigitsAux
  by_cases h : n < 10 <;> simp [h]

theorem natDigits_no_bracket (n : Nat) : '[' ∉ natDigits n := by
  intro hmem
  obtain ⟨d, hd, he⟩ := natDigitsAux_digits (n + 1) n '[' hmem
  exact (digitChar_props d hd).1 he.symm

theorem natDigits_safeCont (n : Nat) (rest : Str) :
    SafeCont (natDigits n ++ rest) := by
  cases hd : natDigits n with
  | nil => exact absurd hd (natDigits_ne_nil n)
  | cons c cs =>
    right
    obtain ⟨d, hlt, he⟩ :=
      natDigitsAux_digits (n + 1) n c
        (by rw [show natDigitsAux (n + 1) n = natDigits n from rfl, hd]
            exact List.mem_cons_self c cs)
    obtain ⟨-, -, hr, he2, hf, heq, -, -⟩ := digitChar_props d hlt
    exact ⟨c, cs ++ rest, by simp, he ▸ hr, he ▸ he2, he ▸ hf, he ▸ heq⟩

/-- Tokens of a rendered line followed by nothing or by a newline and more
text: the line contributes exactly `rs` and scanning continues cleanly. -/
def GoodLine (l : Str) (rs : List Str) : Prop :=
  ∀ c : Str, (c = [] ∨ ∃ c2, c = '\n' :: c2) →
    refTokens (l ++ c) = rs ++ refTokens c

theorem safeCont_of_line_end (c : Str)
    (hc : c = [] ∨ ∃ c2, c = '\n' :: c2) : SafeCont c := by
  rcases hc with hc | ⟨c2, hc⟩
  · exact Or.inl hc
  · exact Or.inr ⟨'\n', c2, hc, by decide, by decide, by decide, by decide⟩

theorem goodLine_clean (l : Str) (h : hasSub refMark l = false) :
    GoodLine l [] := by
  intro c hc
  rw [List.nil_append]
  exact refTokens_append_clean l c h (safeCont_of_line_end c hc)

theorem refTokens_name_seg (nm rest : Str) (hname : hasSub refMark nm = false) :
    refTokens (' ' :: '"' :: (nm ++ '"' :: rest)) = refTokens rest := by
  rw [refTokens_cons_skip ' ' _ (by decide), refTokens_cons_skip '"' _ (by decide),
    refTokens_append_clean nm ('"' :: rest) hname
      (Or.inr ⟨'"', rest, rfl, by decide, by decide, by decide, by decide⟩),
    refTokens_cons_skip '"' rest (by decide)]

theorem refTokens_nth_seg (n2 : Nat) (rest : Str) :
    refTokens (' ' :: '[' :: 'n' :: 't' :: 'h' :: '=' :: (natDigits n2 ++ ']' :: rest))
      = refTokens rest := by
  rw [refTokens_cons_skip ' ' _ (by decide)]
  rw [refTokens_bracket_notref _
    (Or.inr (fun d hd => by
      simp only [List.head?_cons, Option.some.injEq] at hd
      subst hd
      decide))]
  rw [refTokens_cons_skip 'n' _ (by decide), refTokens_cons_skip 't' _ (by decide),
    refTokens_cons_skip 'h' _ (by decide), refTokens_cons_skip '=' _ (by decide),
    refTokens_append_no_bracket (natDigits n2) _ (natDigits_no_bracket n2),
    refTokens_cons_skip ']' rest (by decide)]

theorem refTokens_ref_seg (ref rest : Str) (href : ']' ∉ ref) :
    refTokens (' ' :: '[' :: 'r' :: 'e' :: 'f' :: '=' :: (ref ++ ']' :: rest))
      = ref :: refTokens rest := by
  rw [refTokens_cons_skip ' ' _ (by decide), refTokens_extract ref rest href,
    refTokens_cons_skip ']' rest (by decide)]

theorem goodLine_enhanced (pre roleRaw nm ref suffixPart : Str) (n2 : Nat)
    (cName cNth cSuf : Prop) [Decidable cName] [Decidable cNth] [Decidable cSuf]
    (hpre : '[' ∉ pre) (hrole : '[' ∉ roleRaw)
    (hname : hasSub refMark nm = false) (href : ']' ∉ ref)
    (hsuf : hasSub refMark suffixPart = false) :
    GoodLine
      (pre ++ roleRaw
        ++ (if cName then ' ' :: '"' :: nm ++ ['"'] else [])
        ++ (' ' :: '[' :: 'r' :: 'e' :: 'f' :: '=' :: ref ++ [']'])
        ++ (if cNth then ' ' :: '[' :: 'n' :: 't' :: 'h' :: '=' :: natDigits n2 ++ [']'] else [])
        ++ (if cSuf then suffixPart else []))
      [ref] := by
  intro c hc
  have hsafe := safeCont_of_line_end c hc
  by_cases h1 : cName <;> by_cases h2 : cNth <;> by_cases h3 : cSuf <;>
    simp only [h1, h2, h3, if_true, if_false, ite_true, ite_false,
      List.append_assoc, List.cons_append, List.singleton_append,
      List.nil_append, List.append_nil] <;>
    rw [refTokens_append_no_bracket pre _ hpre,
      refTokens_append_no_bracket roleRaw _ hrole]
  · rw [refTokens_name_seg _ _ hname, refTokens_ref_seg _ _ href,
      refTokens_nth_seg,
      refTokens_append_clean suffixPart c hsuf hsafe]
  · rw [refTokens_name_seg _ _ hname, refTokens_ref_seg _ _ href,
      refTokens_nth_seg]
  · rw [refTokens_name_seg _ _ hname, refTokens_ref_seg _ _ href,
      refTokens_append_clean suffixPart c hsuf hsafe]
  · rw [refTokens_name_seg _ _ hname, refTokens_ref_seg _ _ href]
  · rw [refTokens_ref_seg _ _ href, refTokens_nth_seg,
      refTokens_append_clean suffixPart c hsuf hsafe]
  · rw [refTokens_ref_seg _ _ href, refTokens_nth_seg]
  · rw [refTokens_ref_seg _ _ href,
      refTokens_append_clean suffixPart c hsuf hsafe]
  · rw [refTokens_ref_seg _ _ href]

theorem isPrefixOfC_iff (p l : Str) : isPrefixOfC p l = true ↔ p <+: l := by
  induction p generalizing l with
  | nil => simp [isPrefixOfC]
  | cons a as ih =>
    cases l with
    | nil => simp [isPrefixOfC]
    | cons b bs =>
      simp [isPrefixOfC, List.cons_prefix_cons, ih]

theorem hasSub_iff_sub (pat l : Str) : hasSub pat l = true ↔ pat <:+: l := by
  induction l with
  | nil => simp [hasSub, List.isEmpty_iff, List.infix_nil]
  | cons c cs ih =>
    rw [hasSub_cons_eq, Bool.or_eq_true, isPrefixOfC_iff, ih, List.infix_cons_iff]

theorem hasSub_false_of_part (pat x l : Str) (hinf : x <:+: l)
    (h : hasSub pat l = false) : hasSub pat x = false := by
  rw [← Bool.not_eq_true] at h ⊢
  intro hx
  exact h ((hasSub_iff_sub pat l).mpr
    (List.IsInfix.trans ((hasSub_iff_sub pat x).mp hx) hinf))

/-- What a successful line match tells us about the captured groups: the
bullet group is whitespace and a dash, the role group is word characters,
and every group is an infix of the line. -/
theorem lineMatch_decomp (l : Str) (parts : LineParts)
    (h : lineMatch l = some parts) :
    (∀ ch ∈ parts.pre, isJsSpace ch = true ∨ ch = '-') ∧
    (∀ ch ∈ parts.roleRaw, isWordChar ch = true) ∧
    parts.pre <:+: l ∧ parts.roleRaw <:+: l ∧ parts.suffixPart <:+: l ∧
    (∀ nm, parts.name = some nm → nm <:+: l) := by
  unfold lineMatch at h
  split at h
  case h_2 => exact absurd h (by simp)
  rename_i r2 heq1
  have hl1 : l.takeWhile isJsSpace ++ '-' :: r2 = l := by
    rw [← heq1]
    exact List.takeWhile_append_dropWhile isJsSpace l
  have hr2 : r2.takeWhile isJsSpace ++ r2.dropWhile isJsSpace = r2 :=
    List.takeWhile_append_dropWhile isJsSpace r2
  have hr3 : (r2.dropWhile isJsSpace).takeWhile isWordChar
      ++ (r2.dropWhile isJsSpace).dropWhile isWordChar = r2.dropWhile isJsSpace :=
    List.takeWhile_append_dropWhile isWordChar (r2.dropWhile isJsSpace)
  simp only [] at h
  split at h
  case isTrue => exact absurd h (by simp)
  rename_i hrole_ne
  have hprechars : ∀ ch ∈ l.takeWhile isJsSpace ++ '-' :: r2.takeWhile isJsSpace,
      isJsSpace ch = true ∨ ch = '-' := by
    intro ch hch
    rcases List.mem_append.mp hch with hch | hch
    · exact Or.inl (List.mem_takeWhile_imp hch)
    · rcases List.mem_cons.mp hch with hch | hch
      · exact Or.inr hch
      · exact Or.inl (List.mem_takeWhile_imp hch)
  have hrolechars : ∀ ch ∈ (r2.dropWhile isJsSpace).takeWhile isWordChar,
      isWordChar ch = true := fun ch hch => List.mem_takeWhile_imp hch
  have hmid : r2.takeWhile isJsSpace ++ ((r2.dropWhile isJsSpace).takeWhile isWordChar
      ++ (r2.dropWhile isJsSpace).dropWhile isWordChar) = r2 := by
    rw [hr3]
    exact hr2
  have hfull : l = (l.takeWhile isJsSpace ++ '-' :: r2.takeWhile isJsSpace)
      ++ ((r2.dropWhile isJsSpace).takeWhile isWordChar
        ++ (r2.dropWhile isJsSpace).dropWhile isWordChar) := by
    conv_lhs => rw [← hl1]
    simp only [List.append_assoc, List.cons_append]
    rw [hmid]
  have hpreinf : (l.takeWhile isJsSpace ++ '-' :: r2.takeWhile isJsSpace) <:+: l :=
    List.IsPrefix.isInfix ⟨(r2.dropWhile isJsSpace).takeWhile isWordChar
      ++ (r2.dropWhile isJsSpace).dropWhile isWordChar, hfull.symm⟩
  have hroleinf : (r2.dropWhile isJsSpace).takeWhile isWordChar <:+: l :=
    ⟨l.takeWhile isJsSpace ++ '-' :: r2.takeWhile isJsSpace,
     (r2.dropWhile isJsSpace).dropWhile isWordChar, by
       rw [List.append_assoc]
       exact hfull.symm⟩
  have hr4suf : (r2.dropWhile isJsSpace).dropWhile isWordChar <:+ l :=
    ⟨(l.takeWhile isJsSpace ++ '-' :: r2.takeWhile isJsSpace)
      ++ (r2.dropWhile isJsSpace).takeWhile isWordChar, by
        rw [List.append_assoc]
        exact hfull.symm⟩
  have hfallback_conc :
      parts = ⟨l.takeWhile isJsSpace ++ '-' :: r2.takeWhile isJsSpace,
               (r2.dropWhile isJsSpace).takeWhile isWordChar, none,
               (r2.dropWhile isJsSpace).dropWhile isWordChar⟩ →
      (∀ ch ∈ parts.pre, isJsSpace ch = true ∨ ch = '-') ∧
      (∀ ch ∈ parts.roleRaw, isWordChar ch = true) ∧
      parts.pre <:+: l ∧ parts.roleRaw <:+: l ∧ parts.suffixPart <:+: l ∧
      (∀ nm, parts.name = some nm → nm <:+: l) := by
    intro hp
    subst hp
    exact ⟨hprechars, hrolechars, hpreinf, hroleinf, hr4suf.isInfix,
      fun nm hnm => absurd hnm (by simp)⟩
  split at h
  case h_1 hd tl r6 heq2 heq3 =>
    have hr4split : (r2.dropWhile isJsSpace).dropWhile isWordChar
        = ((r2.dropWhile isJsSpace).dropWhile isWordChar).takeWhile isJsSpace
          ++ '"' :: r6 := by
      conv_lhs => rw [← List.takeWhile_append_dropWhile isJsSpace
        ((r2.dropWhile isJsSpace).dropWhile isWordChar)]
      rw [heq3]
    have hr6inf : r6 <:+ l := by
      refine List.IsSuffix.trans ⟨((r2.dropWhile isJsSpace).dropWhile
        isWordChar).takeWhile isJsSpace ++ ['"'], ?_⟩ hr4suf
      rw [List.append_assoc, List.singleton_append]
      exact hr4split.symm
    have hr6split : r6 = r6.takeWhile (· ≠ '"') ++ r6.dropWhile (· ≠ '"') :=
      (List.takeWhile_append_dropWhile _ r6).symm
    split at h
    case h_1 suf heq4 =>
      have hnm_inf : r6.takeWhile (· ≠ '"') <:+: l :=
        List.IsInfix.trans
          (List.IsPrefix.isInfix ⟨r6.dropWhile (· ≠ '"'), hr6split.symm⟩)
          hr6inf.isInfix
      have hsuf_inf : suf <:+ l := by
        refine List.IsSuffix.trans ⟨r6.takeWhile (· ≠ '"') ++ ['"'], ?_⟩ hr6inf
        rw [List.append_assoc, List.singleton_append, ← heq4]
        exact hr6split.symm
      split at h
      case isTrue =>
        have hp := (Option.some.injEq _ _).mp h
        rw [← hp]
        exact ⟨hprechars, hrolechars, hpreinf, hroleinf, hsuf_inf.isInfix,
          fun nm hnm => by
            simp only [Option.some.injEq] at hnm
            rw [← hnm]
            exact hnm_inf⟩
      case isFalse =>
        split at h
        case isTrue =>
          exact hfallback_conc ((Option.some.injEq _ _).mp h).symm
        case isFalse => exact absurd h (by simp)
    case h_2 =>
      split at h
      case isTrue =>
        exact hfallback_conc ((Option.some.injEq _ _).mp h).symm
      case isFalse => exact absurd h (by simp)
  case h_2 =>
    split at h
    case isTrue =>
      exact hfallback_conc ((Option.some.injEq _ _).mp h).symm
    case isFalse => exact absurd h (by simp)

/-- Relates a list of rendered output lines to the list of ref tokens they
contribute, in order: a marker-free line contributes none, an enhanced
line contributes exactly its own ref. -/
inductive LinesMatch : List Str → List Str → Prop where
  | nil : LinesMatch [] []
  | clean (l : Str) (ls : List Str) (rs : List Str) :
      hasSub refMark l = false → LinesMatch ls rs → LinesMatch (l :: ls) rs
  | enh (l : Str) (r : Str) (ls : List Str) (rs : List Str) :
      GoodLine l [r] → hasSub refMark l = true →
      LinesMatch ls rs → LinesMatch (l :: ls) (r :: rs)

theorem linesMatch_append {a b ra rb : List Str}
    (ha : LinesMatch a ra) (hb : LinesMatch b rb) :
    LinesMatch (a ++ b) (ra ++ rb) := by
  induction ha with
  | nil => simpa using hb
  | clean l ls rs hc hrest ih => exact LinesMatch.clean l _ _ hc ih
  | enh l r ls rs hg hs hrest ih => exact LinesMatch.enh l r _ _ hg hs ih

theorem linesMatch_tokens (ls rs : List Str) (h : LinesMatch ls rs) :
    refTokens (joinLines ls) = rs := by
  induction h with
  | nil => rfl
  | clean l ls2 rs2 hc hrest ih =>
    cases ls2 with
    | nil =>
      cases hrest
      show refTokens (joinLines [l]) = []
      have hg := goodLine_clean l hc [] (Or.inl rfl)
      simpa using hg
    | cons l2 ls3 =>
      show refTokens (l ++ '\n' :: joinLines (l2 :: ls3)) = rs2
      rw [goodLine_clean l hc ('\n' :: joinLines (l2 :: ls3)) (Or.inr ⟨_, rfl⟩),
        List.nil_append, refTokens_cons_skip '\n' _ (by decide)]
      exact ih
  | enh l r ls2 rs2 hg hs hrest ih =>
    cases ls2 with
    | nil =>
      cases hrest
      show refTokens (joinLines [l]) = [r]
      have hx := hg [] (Or.inl rfl)
      simpa using hx
    | cons l2 ls3 =>
      show refTokens (l ++ '\n' :: joinLines (l2 :: ls3)) = r :: rs2
      rw [hg ('\n' :: joinLines (l2 :: ls3)) (Or.inr ⟨_, rfl⟩),
        refTokens_cons_skip '\n' _ (by decide), ih]
      rfl

theorem linesMatch_compact (ls rs : List Str) (h : LinesMatch ls rs) :
    LinesMatch (compactLines ls) rs := by
  induction h with
  | nil => exact LinesMatch.nil
  | clean l ls2 rs2 hc hrest ih =>
    rw [compactLines_cons]
    by_cases hk : compactKeep l ls2 = true
    · rw [if_pos hk]
      exact LinesMatch.clean l _ _ hc ih
    · rw [if_neg hk]
      exact ih
  | enh l r ls2 rs2 hg hs hrest ih =>
    rw [compactLines_cons]
    have hk : compactKeep l ls2 = true := by
      unfold compactKeep
      rw [if_pos hs]
    rw [if_pos hk]
    exact LinesMatch.enh l r _ _ hg hs ih

theorem noNl_append {a b : Str} (ha : '\n' ∉ a) (hb : '\n' ∉ b) :
    '\n' ∉ a ++ b := by
  intro h
  rcases List.mem_append.mp h with h | h
  · exact ha h
  · exact hb h

theorem noNl_cons {c : Char} {l : Str} (hc : c ≠ '\n') (hl : '\n' ∉ l) :
    '\n' ∉ c :: l := by
  intro h
  rcases List.mem_cons.mp h with h | h
  · exact hc h.symm
  · exact hl h

theorem natDigits_no_newline (n : Nat) : '\n' ∉ natDigits n := by
  intro hmem
  obtain ⟨d, hd, he⟩ := natDigitsAux_digits (n + 1) n '\n' hmem
  exact (digitChar_props d hd).2.2.2.2.2.2.1 he.symm

theorem refName_no_rbracket (n : Nat) : ']' ∉ refName n := by
  intro hmem
  rcases List.mem_cons.mp hmem with h | h
  · exact absurd h.symm (by decide)
  · obtain ⟨d, hd, he⟩ := natDigitsAux_digits (n + 1) n ']' h
    exact (digitChar_props d hd).2.1 he.symm

theorem refName_no_newline (n : Nat) : '\n' ∉ refName n :=
  noNl_cons (by decide) (natDigits_no_newline n)

/-- The rendered enhanced line always contains the `[ref=` marker. -/
theorem hasSub_refMark_enhanced (pre roleRaw nm ref suffixPart : Str) (n2 : Nat)
    (cName cNth cSuf : Prop) [Decidable cName] [Decidable cNth] [Decidable cSuf] :
    hasSub refMark
      (pre ++ roleRaw
        ++ (if cName then ' ' :: '"' :: nm ++ ['"'] else [])
        ++ (' ' :: '[' :: 'r' :: 'e' :: 'f' :: '=' :: ref ++ [']'])
        ++ (if cNth then ' ' :: '[' :: 'n' :: 't' :: 'h' :: '=' :: natDigits n2 ++ [']'] else [])
        ++ (if cSuf then suffixPart else [])) = true := by
  simp only [List.append_assoc, List.cons_append, List.singleton_append]
  apply hasSub_append_right
  apply hasSub_append_right
  apply hasSub_append_right
  rw [hasSub_cons_eq, hasSub_refMark_marker_head]
  simp

/-- The rendered enhanced line contains no newline when its variable
pieces contain none. -/
theorem enhanced_no_newline (pre roleRaw nm ref suffixPart : Str) (n2 : Nat)
    (cName cNth cSuf : Prop) [Decidable cName] [Decidable cNth] [Decidable cSuf]
    (hpre : '\n' ∉ pre) (hrole : '\n' ∉ roleRaw) (hnm : '\n' ∉ nm)
    (href : '\n' ∉ ref) (hsuf : '\n' ∉ suffixPart) :
    '\n' ∉ (pre ++ roleRaw
        ++ (if cName then ' ' :: '"' :: nm ++ ['"'] else [])
        ++ (' ' :: '[' :: 'r' :: 'e' :: 'f' :: '=' :: ref ++ [']'])
        ++ (if cNth then ' ' :: '[' :: 'n' :: 't' :: 'h' :: '=' :: natDigits n2 ++ [']'] else [])
        ++ (if cSuf then suffixPart else [])) := by
  have hdig := natDigits_no_newline n2
  split_ifs <;>
    (repeat' first
      | apply noNl_append
      | apply noNl_cons) <;>
    first
      | assumption
      | decide

def digitVal (l : Str) : Nat := l.foldl (fun a c => a * 10 + (c.toNat - 48)) 0

theorem digitChar_toNat (d : Nat) (h : d < 10) : (digitChar d).toNat = 48 + d := by
  interval_cases d <;> rfl

theorem natDigitsAux_succ (fuel n : Nat) :
    natDigitsAux (fuel + 1) n =
      if n < 10 then [digitChar n]
      else natDigitsAux fuel (n / 10) ++ [digitChar (n % 10)] := rfl

theorem natDigitsAux_foldl (fuel : Nat) :
    ∀ (n acc : Nat), n < fuel →
    (natDigitsAux fuel n).foldl (fun a c => a * 10 + (c.toNat - 48)) acc
      = acc * 10 ^ (natDigitsAux fuel n).length + n := by
  induction fuel with
  | zero => intro n acc h; omega
  | succ fuel ih =>
    intro n acc h
    rw [natDigitsAux_succ]
    by_cases h10 : n < 10
    · rw [if_pos h10]
      simp only [List.foldl_cons, List.foldl_nil, List.length_cons,
        List.length_nil, pow_one]
      rw [digitChar_toNat n h10]
      omega
    · rw [if_neg h10]
      have hdivlt : n / 10 < fuel := by
        have h1 : n / 10 < n := Nat.div_lt_self (by omega) (by omega)
        omega
      rw [List.foldl_append]
      simp only [List.foldl_cons, List.foldl_nil]
      rw [ih (n / 10) acc hdivlt, digitChar_toNat (n % 10) (Nat.mod_lt n (by omega))]
      rw [List.length_append, List.length_cons, List.length_nil, pow_succ,
        ← mul_assoc]
      generalize acc * 10 ^ (natDigitsAux fuel (n / 10)).length = q
      omega

theorem digitVal_natDigits (n : Nat) : digitVal (natDigits n) = n := by
  unfold digitVal natDigits
  rw [natDigitsAux_foldl (n + 1) n 0 (Nat.lt_succ_self n)]
  simp

theorem refName_injective (a b : Nat) (h : refName a = refName b) : a = b := by
  unfold refName at h
  injection h with _ h2
  have := congrArg digitVal h2
  rw [digitVal_natDigits, digitVal_natDigits] at this
  exact this

theorem splitLines_cons_nl (cs : Str) :
    splitLines ('\n' :: cs) = [] :: splitLines cs := by
  rw [splitLines, if_pos rfl]

theorem splitLines_ne_nil (s : Str) : splitLines s ≠ [] := by
  cases s with
  | nil => simp [splitLines]
  | cons c cs =>
    rw [splitLines]
    by_cases hc : c = '\n'
    · rw [if_pos hc]
      simp
    · rw [if_neg hc]
      cases hcs : splitLines cs <;> simp

theorem splitLines_cons_nnl (c : Char) (cs x : Str) (xs : List Str)
    (hc : ¬ c = '\n') (hcs : splitLines cs = x :: xs) :
    splitLines (c :: cs) = (c :: x) :: xs := by
  rw [splitLines, if_neg hc, hcs]

theorem splitLines_pieces (s : Str) :
    (∀ l ∈ splitLines s, l <:+: s) ∧
    (∀ x xs, splitLines s = x :: xs → x <+: s) := by
  induction s with
  | nil =>
    constructor
    · intro l hl
      simp only [splitLines, List.mem_singleton] at hl
      subst hl
      exact List.nil_infix
    · intro x xs hx
      simp only [splitLines, List.cons.injEq] at hx
      rw [← hx.1]
  | cons c cs ih =>
    by_cases hc : c = '\n'
    · subst hc
      constructor
      · intro l hl
        rw [splitLines_cons_nl] at hl
        rcases List.mem_cons.mp hl with hl | hl
        · subst hl
          exact List.nil_infix
        · exact List.infix_cons (ih.1 l hl)
      · intro x xs hx
        rw [splitLines_cons_nl] at hx
        rw [← (List.cons.injEq _ _ _ _).mp hx |>.1]
        exact List.nil_prefix
    · cases hcs : splitLines cs with
      | nil => exact absurd hcs (splitLines_ne_nil cs)
      | cons x0 xs0 =>
        have hx0 : x0 <+: cs := ih.2 x0 xs0 hcs
        have hsl := splitLines_cons_nnl c cs x0 xs0 hc hcs
        constructor
        · intro l hl
          rw [hsl] at hl
          rcases List.mem_cons.mp hl with hl | hl
          · subst hl
            exact List.IsPrefix.isInfix (List.cons_prefix_cons.mpr ⟨rfl, hx0⟩)
          · refine List.infix_cons (ih.1 l ?_)
            rw [hcs]
            exact List.mem_cons_of_mem x0 hl
        · intro x xs hx
          rw [hsl] at hx
          rw [← (List.cons.injEq _ _ _ _).mp hx |>.1]
          exact List.cons_prefix_cons.mpr ⟨rfl, hx0⟩

-- ── Sequence of generated ref keys ──

def refNames (n : Nat) : List Str := (List.range n).map (fun i => refName (i + 1))

theorem refNames_succ (n : Nat) :
    refNames (n + 1) = refNames n ++ [refName (n + 1)] := by
  unfold refNames
  rw [List.range_succ, List.map_append]
  simp

theorem refNames_nodup (n : Nat) : (refNames n).Nodup := by
  refine List.Nodup.map ?_ (List.nodup_range n)
  intro a b hab
  have h2 := refName_injective (a + 1) (b + 1) hab
  omega

/-- Invariant carried through the builder fold: the table keys are exactly
`e1 … e<counter>` in order, the output lines rendered so far mention
exactly those refs in order, and no rendered line contains a newline. -/
structure OutInv (st : BuildSt) : Prop where
  names : st.refs.map Prod.fst = refNames st.counter
  lm : LinesMatch st.out (st.refs.map Prod.fst)
  noNl : ∀ l ∈ st.out, '\n' ∉ l

theorem outInv_init : OutInv initSt :=
  ⟨rfl, LinesMatch.nil, fun l hl => absurd hl (List.not_mem_nil l)⟩

theorem outInv_add (st : BuildSt) (line : Str) (parts : LineParts)
    (heq : lineMatch line = some parts)
    (hline : hasSub refMark line = false) (hnl : '\n' ∉ line)
    (h : OutInv st) (tr : Tracker) (info : RoleRefInfo) (n2 : Nat)
    (cName cNth cSuf : Prop) [Decidable cName] [Decidable cNth] [Decidable cSuf] :
    OutInv ⟨st.counter + 1,
      st.refs ++ [(refName (st.counter + 1), info)], tr,
      st.out ++ [parts.pre ++ parts.roleRaw
        ++ (if cName then ' ' :: '"' :: parts.name.getD [] ++ ['"'] else [])
        ++ (' ' :: '[' :: 'r' :: 'e' :: 'f' :: '=' :: refName (st.counter + 1) ++ [']'])
        ++ (if cNth then ' ' :: '[' :: 'n' :: 't' :: 'h' :: '=' :: natDigits n2 ++ [']'] else [])
        ++ (if cSuf then parts.suffixPart else [])]⟩ := by
  obtain ⟨hprechars, hrolechars, hpreinf, hroleinf, hsufinf, hnameinf⟩ :=
    lineMatch_decomp line parts heq
  have hpre_nb : '[' ∉ parts.pre := by
    intro hm
    rcases hprechars '[' hm with hx | hx
    · exact absurd hx (by decide)
    · exact absurd hx (by decide)
  have hrole_nb : '[' ∉ parts.roleRaw := by
    intro hm
    exact absurd (hrolechars '[' hm) (by decide)
  have hname_clean : hasSub refMark (parts.name.getD []) = false := by
    cases hn : parts.name with
    | none => decide
    | some nm =>
      simp only [Option.getD_some]
      exact hasSub_false_of_part refMark nm line (hnameinf nm hn) hline
  have hsuf_clean : hasSub refMark parts.suffixPart = false :=
    hasSub_false_of_part refMark parts.suffixPart line hsufinf hline
  have hpre_nl : '\n' ∉ parts.pre := fun hm => hnl (hpreinf.subset hm)
  have hrole_nl : '\n' ∉ parts.roleRaw := fun hm => hnl (hroleinf.subset hm)
  have hsuf_nl : '\n' ∉ parts.suffixPart := fun hm => hnl (hsufinf.subset hm)
  have hname_nl : '\n' ∉ parts.name.getD [] := by
    cases hn : parts.name with
    | none => exact List.not_mem_nil _
    | some nm =>
      simp only [Option.getD_some]
      exact fun hm => hnl ((hnameinf nm hn).subset hm)
  have hgood := goodLine_enhanced parts.pre parts.roleRaw (parts.name.getD [])
    (refName (st.counter + 1)) parts.suffixPart n2 cName cNth cSuf
    hpre_nb hrole_nb hname_clean (refName_no_rbracket (st.counter + 1)) hsuf_clean
  have hmark := hasSub_refMark_enhanced parts.pre parts.roleRaw (parts.name.getD [])
    (refName (st.counter + 1)) parts.suffixPart n2 cName cNth cSuf
  have hnonl := enhanced_no_newline parts.pre parts.roleRaw (parts.name.getD [])
    (refName (st.counter + 1)) parts.suffixPart n2 cName cNth cSuf
    hpre_nl hrole_nl hname_nl (refName_no_newline (st.counter + 1)) hsuf_nl
  constructor
  · show (st.refs ++ [(refName (st.counter + 1), info)]).map Prod.fst
      = refNames (st.counter + 1)
    rw [List.map_append, h.names, refNames_succ]
    rfl
  · show LinesMatch (st.out ++ [_])
      ((st.refs ++ [(refName (st.counter + 1), info)]).map Prod.fst)
    rw [List.map_append]
    exact linesMatch_append h.lm
      (LinesMatch.enh _ _ [] [] hgood hmark LinesMatch.nil)
  · intro l hl
    rcases List.mem_append.mp hl with hl | hl
    · exact h.noNl l hl
    · have hle := List.mem_singleton.mp hl
      subst hle
      exact hnonl

theorem outInv_pass (st : BuildSt) (line : Str)
    (hline : hasSub refMark line = false) (hnl : '\n' ∉ line)
    (h : OutInv st) :
    OutInv ⟨st.counter, st.refs, st.tracker, st.out ++ [line]⟩ := by
  refine ⟨h.names, ?_, ?_⟩
  · have hx := linesMatch_append h.lm (LinesMatch.clean line [] [] hline LinesMatch.nil)
    simpa using hx
  · intro l hl
    rcases List.mem_append.mp hl with hl | hl
    · exact h.noNl l hl
    · have hle := List.mem_singleton.mp hl
      subst hle
      exact hnl

theorem outInv_interStep (options : SnapshotBuildOptions) (st : BuildSt)
    (line : Str) (hline : hasSub refMark line = false) (hnl : '\n' ∉ line)
    (h : OutInv st) : OutInv (interProcessLine options st line) := by
  unfold interProcessLine
  split
  · exact h
  · split
    · exact h
    · rename_i parts heq
      split
      · exact h
      · simp only [getNextIndex, trackRef]
        by_cases hrole : lowerStr parts.roleRaw ∈ INTERACTIVE_ROLES
        · rw [if_pos hrole]
          exact outInv_add st line parts heq hline hnl h _ _ _ _ _ _
        · rw [if_neg hrole]
          exact h

theorem outInv_fullStep (options : SnapshotBuildOptions) (st : BuildSt)
    (line : Str) (hline : hasSub refMark line = false) (hnl : '\n' ∉ line)
    (h : OutInv st) : OutInv (fullProcessLine options st line) := by
  unfold fullProcessLine
  split
  · exact h
  · split
    · exact outInv_pass st line hline hnl h
    · rename_i parts heq
      split
      · exact outInv_pass st line hline hnl h
      · simp only [getNextIndex, trackRef]
        by_cases hskip : (options.compact
            && decide (lowerStr parts.roleRaw ∈ STRUCTURAL_ROLES)
            && !nameTruthy parts.name) = true
        · rw [if_pos hskip]
          exact h
        · rw [if_neg hskip]
          by_cases haddr : (!(decide (lowerStr parts.roleRaw ∈ INTERACTIVE_ROLES)
              || decide (lowerStr parts.roleRaw ∈ CONTENT_ROLES)
                && nameTruthy parts.name)) = true
          · rw [if_pos haddr]
            exact outInv_pass st line hline hnl h
          · rw [if_neg haddr]
            exact outInv_add st line parts heq hline hnl h _ _ _ _ _ _

theorem outInv_foldl_inter (options : SnapshotBuildOptions)
    (lines : List Str) :
    ∀ st : BuildSt, (∀ l ∈ lines, hasSub refMark l = false ∧ '\n' ∉ l) →
    OutInv st → OutInv (lines.foldl (interProcessLine options) st) := by
  induction lines with
  | nil =>
    intro st _ h
    exact h
  | cons l rest ih =>
    intro st hlines h
    exact ih _ (fun x hx => hlines x (List.mem_cons_of_mem l hx))
      (outInv_interStep options st l (hlines l (List.mem_cons_self l rest)).1
        (hlines l (List.mem_cons_self l rest)).2 h)

theorem outInv_foldl_full (options : SnapshotBuildOptions)
    (lines : List Str) :
    ∀ st : BuildSt, (∀ l ∈ lines, hasSub refMark l = false ∧ '\n' ∉ l) →
    OutInv st → OutInv (lines.foldl (fullProcessLine options) st) := by
  induction lines with
  | nil =>
    intro st _ h
    exact h
  | cons l rest ih =>
    intro st hlines h
    exact ih _ (fun x hx => hlines x (List.mem_cons_of_mem l hx))
      (outInv_fullStep options st l (hlines l (List.mem_cons_self l rest)).1
        (hlines l (List.mem_cons_self l rest)).2 h)

theorem removeNth_keys (refs : RoleRefs) (t : Tracker) :
    (removeNthFromNonDuplicates refs t).map Prod.fst = refs.map Prod.fst := by
  unfold removeNthFromNonDuplicates
  rw [List.map_map]
  apply List.map_congr_left
  intro p _
  simp only [Function.comp_apply]
  by_cases hd : isDuplicateKey t (getKey p.2.role p.2.name) = true
  · rw [if_pos hd]
  · rw [if_neg hd]

theorem tokens_of_inv (st : BuildSt) (placeholder : Str)
    (hph : refTokens placeholder = [])
    (hinv : OutInv st) :
    refTokens (if joinLines st.out = [] then placeholder else joinLines st.out)
      = (removeNthFromNonDuplicates st.refs st.tracker).map Prod.fst := by
  rw [removeNth_keys]
  by_cases hj : joinLines st.out = []
  · rw [if_pos hj, hph]
    have hx := linesMatch_tokens st.out _ hinv.lm
    rw [hj] at hx
    exact hx
  · rw [if_neg hj]
    exact linesMatch_tokens st.out _ hinv.lm

theorem tokens_of_inv_compact (st : BuildSt) (hinv : OutInv st) :
    refTokens (compactTree (if joinLines st.out = [] then str "(empty)"
        else joinLines st.out))
      = (removeNthFromNonDuplicates st.refs st.tracker).map Prod.fst := by
  rw [removeNth_keys]
  by_cases hj : joinLines st.out = []
  · rw [if_pos hj]
    have hx := linesMatch_tokens st.out _ hinv.lm
    rw [hj] at hx
    rw [show refTokens (compactTree (str "(empty)")) = [] from by decide]
    exact hx
  · rw [if_neg hj]
    have hout_ne : st.out ≠ [] := by
      intro hnil
      rw [hnil] at hj
      exact hj rfl
    unfold compactTree
    rw [splitLines_joinLines st.out hout_ne hinv.noNl]
    exact linesMatch_tokens _ _ (linesMatch_compact st.out _ hinv.lm)

/-- Counterexample to the literal claim C2: on an input whose text already
carries a `[ref=e9]` marker inside a line that does not parse as a role
line, full-tree mode copies the line into the snapshot verbatim, so the
returned snapshot text contains the ref token `e9` while the returned ref
table is empty — an orphan ref in the text direction. -/
theorem c2_counterexample :
    refTokens (buildRoleSnapshotFromAriaSnapshot (str "x [ref=e9]") {}).snapshot
      = [str "e9"] ∧
    (buildRoleSnapshotFromAriaSnapshot (str "x [ref=e9]") {}).refs = [] := by
  decide

/-- Claim C2 (amended): for every input string that does not already
contain the `[ref=` marker, and every option combination (interactive,
compact, maxDepth), the snapshot text and ref table returned by
`buildRoleSnapshotFromAriaSnapshot` are index-consistent: the ref tokens
appearing in the snapshot text are exactly the keys of the returned ref
table, in order, and those keys are pairwise distinct — so every ref token
in the text has exactly one table entry and every table entry appears in
the text.  (Inputs already containing `[ref=` break the text→table
direction; see the counterexample.) -/
theorem c2_snapshot_and_table_index_consistent (input : Str)
    (options : SnapshotBuildOptions)
    (hclean : hasSub refMark input = false) :
    refTokens (buildRoleSnapshotFromAriaSnapshot input options).snapshot
      = (buildRoleSnapshotFromAriaSnapshot input options).refs.map Prod.fst ∧
    ((buildRoleSnapshotFromAriaSnapshot input options).refs.map Prod.fst).Nodup := by
  have hlines : ∀ l ∈ splitLines input, hasSub refMark l = false ∧ '\n' ∉ l :=
    fun l hl => ⟨hasSub_false_of_part refMark l input
        ((splitLines_pieces input).1 l hl) hclean,
      splitLines_no_newline input l hl⟩
  by_cases hI : options.interactive = true
  · have hinv := outInv_foldl_inter options (splitLines input) initSt hlines outInv_init
    have hbuild : buildRoleSnapshotFromAriaSnapshot input options
        = ⟨if joinLines ((splitLines input).foldl (interProcessLine options) initSt).out = []
             then str "(no interactive elements)"
             else joinLines ((splitLines input).foldl (interProcessLine options) initSt).out,
           removeNthFromNonDuplicates
             ((splitLines input).foldl (interProcessLine options) initSt).refs
             ((splitLines input).foldl (interProcessLine options) initSt).tracker⟩ := by
      simp only [buildRoleSnapshotFromAriaSnapshot, hI, if_true]
    rw [hbuild]
    refine ⟨tokens_of_inv _ _ (by decide) hinv, ?_⟩
    show ((removeNthFromNonDuplicates _ _).map Prod.fst).Nodup
    rw [removeNth_keys, hinv.names]
    exact refNames_nodup _
  · have hinv := outInv_foldl_full options (splitLines input) initSt hlines outInv_init
    have hbuild : buildRoleSnapshotFromAriaSnapshot input options
        = ⟨(if options.compact then
              compactTree (if joinLines ((splitLines input).foldl (fullProcessLine options) initSt).out = []
                then str "(empty)"
                else joinLines ((splitLines input).foldl (fullProcessLine options) initSt).out)
            else
              (if joinLines ((splitLines input).foldl (fullProcessLine options) initSt).out = []
                then str "(empty)"
                else joinLines ((splitLines input).foldl (fullProcessLine options) initSt).out)),
           removeNthFromNonDuplicates
             ((splitLines input).foldl (fullProcessLine options) initSt).refs
             ((splitLines input).foldl (fullProcessLine options) initSt).tracker⟩ := by
      simp only [Bool.not_eq_true] at hI
      simp only [buildRoleSnapshotFromAriaSnapshot, hI, Bool.false_eq_true, if_false]
    rw [hbuild]
    refine ⟨?_, ?_⟩
    · show refTokens (if options.compact then _ else _) = _
      by_cases hC : options.compact = true
      · rw [if_pos hC]
        exact tokens_of_inv_compact _ hinv
      · rw [if_neg hC]
        exact tokens_of_inv _ _ (by decide) hinv
    · show ((removeNthFromNonDuplicates _ _).map Prod.fst).Nodup
      rw [removeNth_keys, hinv.names]
      exact refNames_nodup _

theorem c2_snapshot_and_table_index_consistent_witness :
    hasSub refMark (str "- button \"Go\"") = false ∧
    (refTokens (buildRoleSnapshotFromAriaSnapshot (str "- button \"Go\"") {}).snapshot
       = (buildRoleSnapshotFromAriaSnapshot (str "- button \"Go\"") {}).refs.map Prod.fst ∧
     ((buildRoleSnapshotFromAriaSnapshot (str "- button \"Go\"") {}).refs.map Prod.fst).Nodup) :=
  ⟨by decide,
   c2_snapshot_and_table_index_consistent (str "- button \"Go\"") {} (by decide)⟩

-- ═══ Claim C5 ═══

theorem toLower_ne_colon (c : Char) (h : isWordChar c = true) :
    Char.toLower c ≠ ':' := by
  intro he
  unfold Char.toLower at he
  simp only [] at he
  split at he
  case isTrue hcond =>
    obtain ⟨h1, h2⟩ := hcond
    interval_cases hn : c.toNat <;> exact absurd he (by decide)
  case isFalse hcond =>
    subst he
    exact absurd h (by decide)

theorem lowerStr_no_colon (r : Str) (h : ∀ ch ∈ r, isWordChar ch = true) :
    ':' ∉ lowerStr r := by
  intro hm
  unfold lowerStr at hm
  obtain ⟨c, hc, he⟩ := List.mem_map.mp hm
  exact toLower_ne_colon c (h c hc) he

theorem interactive_not_structural (r : Str) (h : r ∈ INTERACTIVE_ROLES) :
    r ∉ STRUCTURAL_ROLES := by
  fin_cases h <;> decide

/-- A `(role, name)` key determines the role and the name when neither
role contains a colon. -/
theorem key_roles_eq (r1 : Str) : ∀ (r2 n1 n2 : Str), ':' ∉ r1 → ':' ∉ r2 →
    r1 ++ ':' :: n1 = r2 ++ ':' :: n2 → r1 = r2 ∧ n1 = n2 := by
  induction r1 with
  | nil =>
    intro r2 n1 n2 _ h2 heq
    cases r2 with
    | nil => simpa using heq
    | cons b bs =>
      simp only [List.nil_append, List.cons_append, List.cons.injEq] at heq
      refine absurd ?_ h2
      rw [heq.1]
      exact List.mem_cons_self b bs
  | cons a as ih =>
    intro r2 n1 n2 h1 h2 heq
    cases r2 with
    | nil =>
      simp only [List.cons_append, List.nil_append, List.cons.injEq] at heq
      refine absurd ?_ h1
      rw [← heq.1]
      exact List.mem_cons_self a as
    | cons b bs =>
      simp only [List.cons_append, List.cons.injEq] at heq
      obtain ⟨hab, hrest⟩ := heq
      have h1' : ':' ∉ as := fun hx => h1 (List.mem_cons_of_mem a hx)
      have h2' : ':' ∉ bs := fun hx => h2 (List.mem_cons_of_mem b hx)
      obtain ⟨hr, hn⟩ := ih bs n1 n2 h1' h2' hrest
      exact ⟨by rw [hab, hr], hn⟩

/-- Key multiplicity counted over bare table entries. -/
def keyCountE (es : List RoleRefInfo) (k : Str) : Nat :=
  (es.filter fun e => keyOf e = k).length

theorem keyCount_eq_keyCountE (refs : RoleRefs) (k : Str) :
    keyCount refs k = keyCountE (refs.map Prod.snd) k := by
  unfold keyCount keyCountE
  rw [List.filter_map, List.length_map]
  rfl

theorem keyCountE_filter_interactive (es : List RoleRefInfo) (role : Str)
    (name : Option Str) (hrole : role ∈ INTERACTIVE_ROLES) (hcolon : ':' ∉ role)
    (hes : ∀ e ∈ es, ':' ∉ e.role) :
    keyCountE (es.filter fun e => decide (e.role ∈ INTERACTIVE_ROLES))
        (getKey role name)
      = keyCountE es (getKey role name) := by
  unfold keyCountE
  rw [← List.countP_eq_length_filter, ← List.countP_eq_length_filter,
    List.countP_filter]
  apply List.countP_congr
  intro e he
  by_cases hk : keyOf e = getKey role name
  · have hk' : e.role ++ ':' :: e.name.getD [] = role ++ ':' :: name.getD [] := hk
    have her : e.role = role := (key_roles_eq e.role role (e.name.getD [])
      (name.getD []) (hes e he) hcolon hk').1
    simp [hk, her, hrole]
  · simp [hk]

theorem interProcessLine_skip (o : SnapshotBuildOptions) (st : BuildSt)
    (line : Str) (hd : depthSkip o line = true) :
    interProcessLine o st line = st := by
  unfold interProcessLine
  rw [if_pos hd]

theorem fullProcessLine_skip (o : SnapshotBuildOptions) (st : BuildSt)
    (line : Str) (hd : depthSkip o line = true) :
    fullProcessLine o st line = st := by
  unfold fullProcessLine
  rw [if_pos hd]

theorem interProcessLine_refs_cases (o : SnapshotBuildOptions) (st : BuildSt)
    (line : Str) :
    (interProcessLine o st line).refs = st.refs ∨
    ∃ parts, lineMatch line = some parts ∧
      ¬ parts.roleRaw.head? = some '/' ∧
      lowerStr parts.roleRaw ∈ INTERACTIVE_ROLES ∧
      (interProcessLine o st line).refs = st.refs ++ [(refName (st.counter + 1),
        ⟨lowerStr parts.roleRaw, parts.name,
         some ((lookupA st.tracker.counts
           (getKey (lowerStr parts.roleRaw) parts.name)).getD 0)⟩)] := by
  unfold interProcessLine
  split
  · exact Or.inl rfl
  · split
    · exact Or.inl rfl
    · rename_i parts heq
      split
      · exact Or.inl rfl
      · rename_i hslash
        simp only [getNextIndex, trackRef]
        by_cases hrole : lowerStr parts.roleRaw ∈ INTERACTIVE_ROLES
        · rw [if_pos hrole]
          exact Or.inr ⟨parts, heq, hslash, hrole, rfl⟩
        · rw [if_neg hrole]
          exact Or.inl rfl

theorem fullProcessLine_refs_cases (o : SnapshotBuildOptions) (st : BuildSt)
    (line : Str) :
    (fullProcessLine o st line).refs = st.refs ∨
    ∃ parts, lineMatch line = some parts ∧
      ¬ parts.roleRaw.head? = some '/' ∧
      (fullProcessLine o st line).refs = st.refs ++ [(refName (st.counter + 1),
        ⟨lowerStr parts.roleRaw, parts.name,
         some ((lookupA st.tracker.counts
           (getKey (lowerStr parts.roleRaw) parts.name)).getD 0)⟩)] := by
  unfold fullProcessLine
  split
  · exact Or.inl rfl
  · split
    · exact Or.inl rfl
    · rename_i parts heq
      split
      · exact Or.inl rfl
      · rename_i hslash
        simp only [getNextIndex, trackRef]
        by_cases hskip : (o.compact
            && decide (lowerStr parts.roleRaw ∈ STRUCTURAL_ROLES)
            && !nameTruthy parts.name) = true
        · rw [if_pos hskip]
          exact Or.inl rfl
        · rw [if_neg hskip]
          by_cases haddr : (!(decide (lowerStr parts.roleRaw ∈ INTERACTIVE_ROLES)
              || decide (lowerStr parts.roleRaw ∈ CONTENT_ROLES)
                && nameTruthy parts.name)) = true
          · rw [if_pos haddr]
            exact Or.inl rfl
          · rw [if_neg haddr]
            exact Or.inr ⟨parts, heq, hslash, rfl⟩

theorem interProcessLine_inter_refs (o : SnapshotBuildOptions) (st : BuildSt)
    (line : Str) (parts : LineParts)
    (hd : ¬ depthSkip o line = true) (hlm : lineMatch line = some parts)
    (hs : ¬ parts.roleRaw.head? = some '/')
    (hrole : lowerStr parts.roleRaw ∈ INTERACTIVE_ROLES) :
    (interProcessLine o st line).refs = st.refs ++ [(refName (st.counter + 1),
      ⟨lowerStr parts.roleRaw, parts.name,
       some ((lookupA st.tracker.counts
         (getKey (lowerStr parts.roleRaw) parts.name)).getD 0)⟩)] := by
  unfold interProcessLine
  rw [if_neg hd]
  split
  · rename_i heq
    rw [hlm] at heq
    exact absurd heq (by simp)
  · rename_i parts2 heq
    rw [hlm] at heq
    injection heq with h2
    subst h2
    rw [if_neg hs]
    simp only [getNextIndex, trackRef]
    rw [if_pos hrole]

theorem fullProcessLine_addr_refs (o : SnapshotBuildOptions) (st : BuildSt)
    (line : Str) (parts : LineParts)
    (hd : ¬ depthSkip o line = true) (hlm : lineMatch line = some parts)
    (hs : ¬ parts.roleRaw.head? = some '/')
    (hstruct : ¬ (o.compact && decide (lowerStr parts.roleRaw ∈ STRUCTURAL_ROLES)
        && !nameTruthy parts.name) = true)
    (haddr : ¬ (!(decide (lowerStr parts.roleRaw ∈ INTERACTIVE_ROLES)
        || decide (lowerStr parts.roleRaw ∈ CONTENT_ROLES)
          && nameTruthy parts.name)) = true) :
    (fullProcessLine o st line).refs = st.refs ++ [(refName (st.counter + 1),
      ⟨lowerStr parts.roleRaw, parts.name,
       some ((lookupA st.tracker.counts
         (getKey (lowerStr parts.roleRaw) parts.name)).getD 0)⟩)] := by
  unfold fullProcessLine
  rw [if_neg hd]
  split
  · rename_i heq
    rw [hlm] at heq
    exact absurd heq (by simp)
  · rename_i parts2 heq
    rw [hlm] at heq
    injection heq with h2
    subst h2
    rw [if_neg hs]
    simp only [getNextIndex, trackRef]
    rw [if_neg hstruct, if_neg haddr]

/-- Parallel invariant between the interactive-mode fold state and the
full-tree-mode fold state on the same input prefix: the interactive
table's entries are exactly the interactive-role entries of the full
table, in order; all full-table roles are colon-free; both trackers
satisfy their tracker invariant. -/
structure ParRel (stI stF : BuildSt) : Prop where
  snds : stI.refs.map Prod.snd
      = (stF.refs.map Prod.snd).filter (fun e => decide (e.role ∈ INTERACTIVE_ROLES))
  rolesF : ∀ p ∈ stF.refs, ':' ∉ p.2.role
  trI : TrackerInv stI.refs stI.tracker
  trF : TrackerInv stF.refs stF.tracker

theorem parRel_init : ParRel initSt initSt :=
  ⟨rfl, fun p hp => absurd hp (List.not_mem_nil p), trackerInv_init, trackerInv_init⟩

theorem parRel_step (oI oF : SnapshotBuildOptions) (stI stF : BuildSt)
    (line : Str) (hdepth : oI.maxDepth = oF.maxDepth) (h : ParRel stI stF) :
    ParRel (interProcessLine oI stI line) (fullProcessLine oF stF line) := by
  have trI' := trackerInv_interStep oI stI line h.trI
  have trF' := trackerInv_fullStep oF stF line h.trF
  by_cases hd : depthSkip oI line = true
  · have hdF : depthSkip oF line = true := by
      unfold depthSkip at hd ⊢
      rw [← hdepth]
      exact hd
    rw [interProcessLine_skip oI stI line hd, fullProcessLine_skip oF stF line hdF]
    exact h
  · have hdF : ¬ depthSkip oF line = true := by
      unfold depthSkip at hd ⊢
      rw [← hdepth]
      exact hd
    cases hlm : lineMatch line with
    | none =>
      have eI : (interProcessLine oI stI line).refs = stI.refs := by
        rcases interProcessLine_refs_cases oI stI line with he | ⟨parts, hlm2, -, -, -⟩
        · exact he
        · rw [hlm] at hlm2
          exact absurd hlm2 (by simp)
      have eF : (fullProcessLine oF stF line).refs = stF.refs := by
        rcases fullProcessLine_refs_cases oF stF line with he | ⟨parts, hlm2, -, -⟩
        · exact he
        · rw [hlm] at hlm2
          exact absurd hlm2 (by simp)
      refine ⟨?_, ?_, trI', trF'⟩
      · rw [eI, eF]
        exact h.snds
      · intro p hp
        rw [eF] at hp
        exact h.rolesF p hp
    | some parts =>
      by_cases hs : parts.roleRaw.head? = some '/'
      · have eI : (interProcessLine oI stI line).refs = stI.refs := by
          rcases interProcessLine_refs_cases oI stI line with he | ⟨parts2, hlm2, hs2, -, -⟩
          · exact he
          · rw [hlm] at hlm2
            injection hlm2 with h2
            subst h2
            exact absurd hs hs2
        have eF : (fullProcessLine oF stF line).refs = stF.refs := by
          rcases fullProcessLine_refs_cases oF stF line with he | ⟨parts2, hlm2, hs2, -⟩
          · exact he
          · rw [hlm] at hlm2
            injection hlm2 with h2
            subst h2
            exact absurd hs hs2
        refine ⟨?_, ?_, trI', trF'⟩
        · rw [eI, eF]
          exact h.snds
        · intro p hp
          rw [eF] at hp
          exact h.rolesF p hp
      · have hdecomp := lineMatch_decomp line parts hlm
        have hcolon : ':' ∉ lowerStr parts.roleRaw :=
          lowerStr_no_colon _ hdecomp.2.1
        by_cases hrole : lowerStr parts.roleRaw ∈ INTERACTIVE_ROLES
        · have hns : lowerStr parts.roleRaw ∉ STRUCTURAL_ROLES :=
            interactive_not_structural _ hrole
          have hstruct : ¬ (oF.compact
              && decide (lowerStr parts.roleRaw ∈ STRUCTURAL_ROLES)
              && !nameTruthy parts.name) = true := by
            simp [hns]
          have haddr : ¬ (!(decide (lowerStr parts.roleRaw ∈ INTERACTIVE_ROLES)
              || decide (lowerStr parts.roleRaw ∈ CONTENT_ROLES)
                && nameTruthy parts.name)) = true := by
            simp [hrole]
          have eI := interProcessLine_inter_refs oI stI line parts hd hlm hs hrole
          have eF := fullProcessLine_addr_refs oF stF line parts hdF hlm hs hstruct haddr
          have hesF : ∀ e ∈ stF.refs.map Prod.snd, ':' ∉ e.role := by
            intro e he
            obtain ⟨p, hp, hpe⟩ := List.mem_map.mp he
            rw [← hpe]
            exact h.rolesF p hp
          have hcnt : (lookupA stI.tracker.counts
                (getKey (lowerStr parts.roleRaw) parts.name)).getD 0
              = (lookupA stF.tracker.counts
                (getKey (lowerStr parts.roleRaw) parts.name)).getD 0 := by
            rw [h.trI.counts_eq, h.trF.counts_eq,
              keyCount_eq_keyCountE, keyCount_eq_keyCountE, h.snds]
            exact keyCountE_filter_interactive _ _ _ hrole hcolon hesF
          refine ⟨?_, ?_, trI', trF'⟩
          · rw [eI, eF, hcnt, List.map_append, List.map_append,
              List.filter_append, h.snds]
            simp [hrole]
          · intro p hp
            rw [eF] at hp
            rcases List.mem_append.mp hp with hp | hp
            · exact h.rolesF p hp
            · have hpe := List.mem_singleton.mp hp
              subst hpe
              show ':' ∉ lowerStr parts.roleRaw
              exact hcolon
        · have eI : (interProcessLine oI stI line).refs = stI.refs := by
            rcases interProcessLine_refs_cases oI stI line with he | ⟨parts2, hlm2, -, hr2, -⟩
            · exact he
            · rw [hlm] at hlm2
              injection hlm2 with h2
              subst h2
              exact absurd hr2 hrole
          rcases fullProcessLine_refs_cases oF stF line with heF | ⟨parts2, hlm2, -, heF⟩
          · refine ⟨?_, ?_, trI', trF'⟩
            · rw [eI, heF]
              exact h.snds
            · intro p hp
              rw [heF] at hp
              exact h.rolesF p hp
          · rw [hlm] at hlm2
            injection hlm2 with h2
            subst h2
            refine ⟨?_, ?_, trI', trF'⟩
            · rw [eI, heF, List.map_append, List.filter_append, h.snds]
              simp [hrole]
            · intro p hp
              rw [heF] at hp
              rcases List.mem_append.mp hp with hp | hp
              · exact h.rolesF p hp
              · have hpe := List.mem_singleton.mp hp
                subst hpe
                show ':' ∉ lowerStr parts.roleRaw
                exact hcolon

theorem parRel_foldl (oI oF : SnapshotBuildOptions)
    (hdepth : oI.maxDepth = oF.maxDepth) (lines : List Str) :
    ∀ stI stF, ParRel stI stF →
    ParRel (lines.foldl (interProcessLine oI) stI)
      (lines.foldl (fullProcessLine oF) stF) := by
  induction lines with
  | nil =>
    intro stI stF h
    exact h
  | cons l rest ih =>
    intro stI stF h
    exact ih _ _ (parRel_step oI oF stI stF l hdepth h)

/-- The cleanup pass expressed on bare entries. -/
def stripE (es : List RoleRefInfo) : List RoleRefInfo :=
  es.map fun e => if 1 < keyCountE es (keyOf e) then e else { e with nth := none }

theorem removeNth_map_snd (refs : RoleRefs) (t : Tracker) (h : TrackerInv refs t) :
    (removeNthFromNonDuplicates refs t).map Prod.snd
      = stripE (refs.map Prod.snd) := by
  unfold removeNthFromNonDuplicates stripE
  rw [List.map_map, List.map_map]
  apply List.map_congr_left
  intro p hp
  simp only [Function.comp_apply]
  have hiff := isDuplicateKey_iff_keyCount refs t (keyOf p.2) h
  by_cases hdup : isDuplicateKey t (getKey p.2.role p.2.name) = true
  · rw [if_pos hdup]
    have hgt : 1 < keyCountE (refs.map Prod.snd) (keyOf p.2) := by
      rw [← keyCount_eq_keyCountE]
      exact hiff.mp hdup
    rw [if_pos hgt]
  · rw [if_neg hdup]
    have hngt : ¬ 1 < keyCountE (refs.map Prod.snd) (keyOf p.2) := by
      rw [← keyCount_eq_keyCountE]
      intro hc
      exact hdup (hiff.mpr hc)
    rw [if_neg hngt]

theorem stripE_filter (es : List RoleRefInfo)
    (hes : ∀ e ∈ es, ':' ∉ e.role) :
    stripE (es.filter fun e => decide (e.role ∈ INTERACTIVE_ROLES))
      = (stripE es).filter fun e => decide (e.role ∈ INTERACTIVE_ROLES) := by
  unfold stripE
  rw [List.filter_map]
  have hpred : ∀ e ∈ es, ((fun e => decide (e.role ∈ INTERACTIVE_ROLES)) ∘
      (fun e => if 1 < keyCountE es (keyOf e) then e else { e with nth := none })) e
      = decide (e.role ∈ INTERACTIVE_ROLES) := by
    intro e _
    simp only [Function.comp_apply]
    by_cases hc : 1 < keyCountE es (keyOf e)
    · rw [if_pos hc]
    · rw [if_neg hc]
  rw [List.filter_congr hpred]
  apply List.map_congr_left
  intro e he
  have hmem := List.mem_filter.mp he
  have hrole : e.role ∈ INTERACTIVE_ROLES := by
    have hx := hmem.2
    simpa using hx
  have hcolon : ':' ∉ e.role := hes e hmem.1
  have hcnt : keyCountE (es.filter fun e => decide (e.role ∈ INTERACTIVE_ROLES))
        (getKey e.role e.name)
      = keyCountE es (getKey e.role e.name) :=
    keyCountE_filter_interactive es e.role e.name hrole hcolon hes
  have hcnt' : keyCountE (es.filter fun e => decide (e.role ∈ INTERACTIVE_ROLES))
        (keyOf e)
      = keyCountE es (keyOf e) := hcnt
  rw [hcnt']

/-- Counterexample to the literal claim C5: on the input
`- heading "T"` / `- button "Go"`, interactive mode emits the line
`- button "Go" [ref=e1]`, but full-tree mode numbers the heading first and
renders the button as `- button "Go" [ref=e2]`, so the interactive-mode
line appears nowhere in the full-tree output. -/
theorem c5_counterexample :
    splitLines (buildRoleSnapshotFromAriaSnapshot
        (str "- heading \"T\"\n- button \"Go\"") {interactive := true}).snapshot
      = [str "- button \"Go\" [ref=e1]"] ∧
    str "- button \"Go\" [ref=e1]" ∉ splitLines (buildRoleSnapshotFromAriaSnapshot
        (str "- heading \"T\"\n- button \"Go\"") {interactive := false}).snapshot := by
  decide

/-- Claim C5 (amended): for every input string and every option set, the
table built in interactive-only mode consists of exactly the
interactive-role entries of the table built in full-tree mode, in the same
order and with the same role, name and nth values — interactive mode is a
filtered slice of full-tree mode at the level of addressable elements.
(The line-level subset claimed literally is false because the two modes
number their refs differently; see the counterexample.) -/
theorem c5_interactive_table_is_interactive_slice_of_full (input : Str)
    (options : SnapshotBuildOptions) :
    (buildRoleSnapshotFromAriaSnapshot input
        { options with interactive := true }).refs.map Prod.snd
      = ((buildRoleSnapshotFromAriaSnapshot input
          { options with interactive := false }).refs.map Prod.snd).filter
            (fun e => decide (e.role ∈ INTERACTIVE_ROLES)) := by
  have hrel := parRel_foldl { options with interactive := true }
    { options with interactive := false } rfl (splitLines input)
    initSt initSt parRel_init
  have hesF : ∀ e ∈ ((splitLines input).foldl
        (fullProcessLine { options with interactive := false }) initSt).refs.map Prod.snd,
      ':' ∉ e.role := by
    intro e he
    obtain ⟨p, hp, hpe⟩ := List.mem_map.mp he
    rw [← hpe]
    exact hrel.rolesF p hp
  rw [builtRefs_eq input { options with interactive := true },
    builtRefs_eq input { options with interactive := false },
    if_pos (show ({ options with interactive := true }
      : SnapshotBuildOptions).interactive = true from rfl),
    if_neg (show ¬ ({ options with interactive := false }
      : SnapshotBuildOptions).interactive = true from Bool.false_ne_true),
    removeNth_map_snd _ _ hrel.trI, removeNth_map_snd _ _ hrel.trF,
    hrel.snds]
  exact stripE_filter _ hesF
